/-
Verification of the `plumology.io.hdf` pipeline (`hdf_to_dataframe`,
`plumed_to_h5`) against its specification.

The embedding models:
  * an HDF5 store as an association list `Store` from simulation key to a
    `Record` (association list from field name to a numeric column);
    `h5py` yields group members in increasing name order, which we model
    by sorting the store by key before iterating (`sortByKey`);
  * pandas data frames as a `Frame`: a row multi-index (list of cell
    tuples) plus ordered named columns of cells; missing entries are
    `Cell.na` (pandas NaN);
  * numeric data as exact rationals `ℚ` (the claims under study concern
    exact renormalization / aggregation identities, stated in the spec
    "within floating-point tolerance");
  * the final `sort_index(axis=1).sort_index()` as a canonical `Table`:
    columns sorted by name, rows sorted lexicographically on the index.
Python exceptions are modelled by the `Err` error type of an `Except`.
-/
import Mathlib

namespace Plumology

/-- A cell of a pandas data frame: a number, a string (simulation keys in
the grouper column), or a missing value (NaN). -/
inductive Cell where
  | na : Cell
  | num (q : ℚ) : Cell
  | str (s : String) : Cell
deriving DecidableEq, Repr

/-- Python exceptions raised by the two functions under study. -/
inductive Err where
  /-- `TypeError` from supplying both `reduce` and `aggregator`. -/
  | configConflict : Err
  /-- `KeyError` from accessing a missing column / HDF field. -/
  | keyError (field : String) : Err
  /-- `TypeError` from calling a `None` aggregator. -/
  | nullInvocation : Err
  /-- `ValueError` (mismatched column lengths, zero slice step, ...). -/
  | valueError : Err
  /-- `IndexError` (e.g. `melted[0]` on an empty melt list). -/
  | indexError : Err
  /-- `TypeError` from subscripting a non-subscriptable object. -/
  | notSubscriptable : Err
  /-- `TypeError` from `len()` of an object without a length. -/
  | noLength : Err
  /-- `TypeError` from iterating a non-iterable object. -/
  | notIterable : Err
  /-- `TypeError` from calling a non-callable object. -/
  | notCallable : Err
  /-- Any other `TypeError` (e.g. a non-path argument to a reader). -/
  | typeError : Err
deriving DecidableEq, Repr

/-- One simulation record: association list from field name to its
1-D numeric column, in the store's field order. -/
abbrev Record := List (String × List ℚ)

/-- The columnar store: association list from simulation key to record. -/
abbrev Store := List (String × Record)

/-- A pandas data frame: row index tuples plus named cell columns. -/
structure Frame where
  index : List (List Cell)
  cols : List (String × List Cell)
deriving DecidableEq, Repr

/-- The column names of a frame, in order. -/
def Frame.colNames (f : Frame) : List String := f.cols.map Prod.fst

/-- The number of rows of a frame. -/
def Frame.nrows (f : Frame) : Nat := f.index.length

/-- The canonical form of the returned data frame after
`df.sort_index(axis=1).sort_index()`: sorted column names, and rows as
(index tuple, cells) pairs sorted lexicographically on the index. -/
structure Table where
  colNames : List String
  rows : List (List Cell × List Cell)
deriving DecidableEq, Repr

/-- Auxiliary stride sampler: keep an element when the countdown hits 0,
then restart the countdown at `r - 1`. -/
def everyNthAux (r : Nat) : List ℚ → Nat → List ℚ
  | [], _ => []
  | x :: xs, 0 => x :: everyNthAux r xs (r - 1)
  | _ :: xs, c + 1 => everyNthAux r xs c

/-- NumPy slicing `v[::r]`: the elements of `v` at positions
`0, r, 2*r, ...`. -/
def everyNth (r : Nat) (l : List ℚ) : List ℚ := everyNthAux r l 0

/-- Pandas `w /= w.sum()`: divide a column elementwise by its sum. -/
def normalize (w : List ℚ) : List ℚ := w.map (fun x => x / w.sum)

/-- `r.all (p.2.length == v.length)` over the tail: whether all columns of
a record have equal length (`pd.DataFrame` raises `ValueError` if not). -/
def sameLens : List (String × List ℚ) → Bool
  | [] => true
  | (_, v) :: rest => rest.all (fun p => p.2.length == v.length)

/-- The dictionary comprehension `{k: v[::reduce] for k, v in
store[key].items()}`: every field strided. -/
def strideRed (r : Nat) (rec : Record) : List (String × List ℚ) :=
  rec.map (fun p => (p.1, everyNth r p.2))

/-- The row count of the stride-mode per-record frame (the common length
of the reduced columns; 0 for an empty record). -/
def strideN (r : Nat) (rec : Record) : Nat :=
  (((strideRed r rec).head?).map (fun p => p.2.length)).getD 0

/-- The default pandas `RangeIndex` `0, 1, ..., n-1`, as index tuples. -/
def rangeIndex (n : Nat) : List (List Cell) :=
  (List.range n).map (fun (i : Nat) => [Cell.num (i : ℚ)])

/-- Stride-mode per-record reduction (the `reduce is not None` branch of
`hdf_to_dataframe`): slice every field with `v[::r]`, renormalize the
weight column to sum 1, and tag every row with the simulation key in the
grouper column.  `r = 0` models the `ValueError` of a zero slice step and
unequal reduced column lengths the `ValueError` of the `pd.DataFrame`
constructor. -/
def strideFrame (r : Nat) (wn grouper key : String) (rec : Record) :
    Except Err Frame :=
  if r = 0 then .error .valueError
  else if !sameLens (strideRed r rec) then .error .valueError
  else match (strideRed r rec).lookup wn with
    | none => .error (.keyError wn)
    | some w =>
      .ok { index := rangeIndex (strideN r rec),
            cols := ((strideRed r rec).map (fun p =>
                (p.1, (if p.1 = wn then normalize w else p.2).map Cell.num)))
              ++ [(grouper, List.replicate (strideN r rec) (Cell.str key))] }

/-- Aggregate-mode column loop (the `else` branch of `hdf_to_dataframe`):
for every field except `time` and the weight field, apply the aggregator
to the column, elementwise multiplied with the weight column when
`weight` is true.  A missing weight field is a `KeyError`; a `None`
aggregator is the `TypeError` of calling `None`;  mismatched lengths in
the elementwise product are a `ValueError` (NumPy broadcasting). -/
def aggProd (wn : String) (v : List ℚ) :
    Option (List ℚ) → Except Err (List ℚ)
  | none => .error (.keyError wn)
  | some w =>
    if v.length = w.length then .ok (List.zipWith (· * ·) v w)
    else .error .valueError

/-- See `aggProd`: the weighted case reads the record's weight column. -/
def aggArg (weight : Bool) (wn : String) (rec : Record) (v : List ℚ) :
    Except Err (List ℚ) :=
  if weight then aggProd wn v (rec.lookup wn) else .ok v

/-- The field loop of aggregate mode (see `aggArg` for the argument). -/
def aggCols (agg : Option (List ℚ → ℚ)) (weight : Bool) (wn : String)
    (rec : Record) : List (String × List ℚ) →
    Except Err (List (String × List Cell))
  | [] => .ok []
  | (k, v) :: rest =>
    if k = "time" ∨ k = wn then aggCols agg weight wn rec rest
    else
      match aggArg weight wn rec v with
      | .error e => .error e
      | .ok x =>
        match agg with
        | none => .error .nullInvocation
        | some f =>
          match aggCols agg weight wn rec rest with
          | .error e => .error e
          | .ok cs => .ok ((k, [Cell.num (f x)]) :: cs)

/-- Aggregate-mode per-record frame: a single row indexed by the
simulation key, with the key also stored in the grouper column. -/
def aggFrame (agg : Option (List ℚ → ℚ)) (weight : Bool)
    (wn grouper key : String) (rec : Record) : Except Err Frame :=
  match aggCols agg weight wn rec rec with
  | .error e => .error e
  | .ok cols =>
    .ok { index := [[Cell.str key]],
          cols := cols ++ [(grouper, [Cell.str key])] }

/-- Order-preserving deduplication (first appearance wins); stands in for
Python set-comprehension/column-union deduplication. -/
def dedupKeep {α : Type} [DecidableEq α] (l : List α) : List α :=
  l.foldl (fun acc x => if x ∈ acc then acc else acc ++ [x]) []

/-- `pd.concat(frames)`: stack rows; the columns are the union of the
frames' columns and entries of frames lacking a column are NaN. -/
def concatFrames (fs : List Frame) : Frame :=
  let names := dedupKeep (fs.flatMap Frame.colNames)
  { index := fs.flatMap Frame.index,
    cols := names.map (fun c =>
      (c, fs.flatMap (fun f =>
            ((f.cols.lookup c).getD (List.replicate f.nrows Cell.na))))) }

/-- Python `v.rstrip('0123456789')`: drop the maximal run of trailing
decimal digits. -/
def stripDigits (s : String) : String :=
  ⟨(s.data.reverse.dropWhile Char.isDigit).reverse⟩

/-- The numeric value of a digit string (residue index `res_nr`). -/
def natOfDigits (d : List Char) : Nat :=
  d.foldl (fun n c => 10 * n + (c.toNat - 48)) 0

/-- `pd.wide_to_long` column matching: a column `c` matches stub `st`
when `c = st ++ d` for a nonempty run `d` of decimal digits (the default
suffix pattern); the result is the residue index encoded by `d`. -/
def digitSuffix? (st c : String) : Option Nat :=
  if st.data.isPrefixOf c.data then
    if (c.data.drop st.data.length).isEmpty then none
    else if (c.data.drop st.data.length).all Char.isDigit then
      some (natOfDigits (c.data.drop st.data.length))
    else none
  else none

/-- The suffixed columns of `f` matching a stub, as (suffix, cells). -/
def stubMatches (f : Frame) (st : String) : List (Nat × List Cell) :=
  f.cols.filterMap (fun p => (digitSuffix? st p.1).map (fun k => (k, p.2)))

/-- The columns of `f` matched by some stub (the melted value
variables of `pd.wide_to_long`). -/
def matchedNames (f : Frame) (stubs : List String) : List String :=
  f.colNames.filter (fun c => stubs.any (fun st => (digitSuffix? st c).isSome))

/-- The id variables of `pd.wide_to_long`: every column that no stub
matches, except the melt column `i` itself. -/
def wtlIdVars (f : Frame) (stubs : List String) (i : String) : List String :=
  f.colNames.filter (fun c => !(c ∈ matchedNames f stubs) && c != i)

/-- The distinct residue indices occurring over all stubs. -/
def wtlSuffixes (f : Frame) (stubs : List String) : List Nat :=
  dedupKeep (stubs.flatMap (fun st => (stubMatches f st).map Prod.fst))

/-- One (original row, residue index) pair per output row, row-major. -/
def wtlPairs (f : Frame) (stubs : List String) : List (Nat × Nat) :=
  (List.range f.nrows).flatMap
    (fun r => (wtlSuffixes f stubs).map (fun s => (r, s)))

/-- The long-format frame produced by `pd.wide_to_long`: the row index
becomes (`i` value, residue index), each stub becomes one column read
from the matching suffixed column (NaN where a stub lacks a suffix),
and the id variables are carried along unchanged. -/
def wtlFrame (f : Frame) (stubs : List String) (i : String)
    (iVals : List Cell) : Frame :=
  { index := (wtlPairs f stubs).map (fun p =>
      [(iVals.get? p.1).getD Cell.na, Cell.num (p.2 : ℚ)]),
    cols :=
      (wtlIdVars f stubs i).map (fun c =>
        (c, (wtlPairs f stubs).map (fun p =>
          (((f.cols.lookup c).getD []).get? p.1).getD Cell.na)))
      ++ stubs.map (fun st =>
        (st, (wtlPairs f stubs).map (fun p =>
          (((stubMatches f st).lookup p.2).bind
            (fun cells => cells.get? p.1)).getD Cell.na))) }

/-- `pd.wide_to_long(f, stubs, i, j)` under its documented contract that
the values of column `i` identify rows: every family of columns
`st ++ digits` melts into a single column `st`, the row index becomes
(`i` value, residue index), and all unmatched columns other than `i`
are carried along unchanged.  An empty stub list models the `IndexError`
of `melted[0]` in pandas; a missing `i` column is a `KeyError`. -/
def wideToLong (f : Frame) (stubs : List String) (i : String) :
    Except Err Frame :=
  if stubs.isEmpty then .error .indexError
  else match f.cols.lookup i with
    | none => .error (.keyError i)
    | some iVals => .ok (wtlFrame f stubs i iVals)

/-- `df.set_index([c], append=True)`: move column `c` into the row index
as an additional last level. -/
def setIndexAppend (f : Frame) (c : String) : Except Err Frame :=
  match f.cols.lookup c with
  | none => .error (.keyError c)
  | some vals =>
    .ok { index := (f.index.zip vals).map (fun p => p.1 ++ [p.2]),
          cols := f.cols.filter (fun p => p.1 != c) }

/-- `if c in df: del df[c]`: drop column `c` when present. -/
def delCol (f : Frame) (c : String) : Frame :=
  { f with cols := f.cols.filter (fun p => p.1 != c) }

/-- Lexicographic codepoint order on character lists (the order pandas
uses on string labels). -/
def strLeAux : List Char → List Char → Bool
  | [], _ => true
  | _ :: _, [] => false
  | a :: as, b :: bs => if a = b then strLeAux as bs else decide (a.toNat < b.toNat)

/-- Lexicographic order on strings. -/
def strLe (a b : String) : Bool := strLeAux a.data b.data

/-- Order on cells used for lexicographic index sorting. -/
def cellLe : Cell → Cell → Bool
  | .na, _ => true
  | .num _, .na => false
  | .num a, .num b => decide (a ≤ b)
  | .num _, .str _ => true
  | .str _, .na => false
  | .str _, .num _ => false
  | .str a, .str b => strLe a b

/-- Lexicographic order on index tuples. -/
def cellsLe : List Cell → List Cell → Bool
  | [], _ => true
  | _ :: _, [] => false
  | a :: as, b :: bs => if a = b then cellsLe as bs else cellLe a b

/-- Row order for `sort_index()`: compare rows by their index tuples. -/
def RowLe (a b : List Cell × List Cell) : Prop := cellsLe a.1 b.1 = true

instance : DecidableRel RowLe := fun a b => by
  unfold RowLe; infer_instance

/-- Column order for `sort_index(axis=1)`: compare columns by name. -/
def ColLe (a b : String × List Cell) : Prop := strLe a.1 b.1 = true

instance : DecidableRel ColLe := fun a b =>
  (inferInstance : Decidable (strLe a.1 b.1 = true))

/-- Store-entry order: `h5py` yields group members in name order. -/
def EntryLe (a b : String × Record) : Prop := strLe a.1 b.1 = true

instance : DecidableRel EntryLe := fun a b =>
  (inferInstance : Decidable (strLe a.1 b.1 = true))

/-- Iteration order of `store.keys()`: increasing key order. -/
def sortByKey (store : Store) : Store := store.insertionSort EntryLe

/-- `df.sort_index(axis=1).sort_index()`: sort columns by name, then
materialize the rows and sort them lexicographically on the index. -/
def toTable (f : Frame) : Table :=
  let sortedCols := f.cols.insertionSort ColLe
  let rows := (List.range f.index.length).map (fun rIdx =>
    ((f.index.get? rIdx).getD [],
     sortedCols.map (fun p => (p.2.get? rIdx).getD Cell.na)))
  { colNames := sortedCols.map Prod.fst,
    rows := rows.insertionSort RowLe }

/-- `mapM` over `Except`, with plain structural equations. -/
def mapME {α β : Type} (f : α → Except Err β) : List α → Except Err (List β)
  | [] => .ok []
  | x :: xs =>
    match f x with
    | .error e => .error e
    | .ok y =>
      match mapME f xs with
      | .error e => .error e
      | .ok ys => .ok (y :: ys)

/-- The stub names for `pd.wide_to_long`: the digit-stripped names of
all columns other than `time`, the grouper and the weight column
(`list({v.rstrip('0123456789') for v in raw_frame.columns if ...})`). -/
def stubsOf (grouper wn : String) (rawFrame : Frame) : List String :=
  dedupKeep ((rawFrame.colNames.filter
    (fun c => c != "time" && c != grouper && c != wn)).map stripDigits)

/-- The reshape step of `hdf_to_dataframe`: `pd.wide_to_long` with the
stubs of `stubsOf`, melting on `time` in stride mode and on the grouper
in aggregate mode. -/
def reshapeStep (reduce : Option Nat) (grouper wn : String)
    (rawFrame : Frame) : Except Err Frame :=
  wideToLong rawFrame (stubsOf grouper wn rawFrame)
    (if reduce.isSome then "time" else grouper)

/-- The superfluous-column removal of `hdf_to_dataframe`: in stride mode
fold the grouper into the index and drop a residual `time` column; in
aggregate mode drop a residual grouper column. -/
def dropStep (reduce : Option Nat) (grouper : String) (df : Frame) :
    Except Err Frame :=
  if reduce.isSome then
    match setIndexAppend df grouper with
    | .error e => .error e
    | .ok f => .ok (delCol f "time")
  else .ok (delCol df grouper)

/-- `hdf_to_dataframe`: read the store to a data frame, reducing the
number of datapoints by striding or aggregation, optionally reshaping
residue-indexed column families to long format, and sorting the result
canonically. -/
def hdfToDataframe (store : Store) (reduce : Option Nat)
    (aggregator : Option (List ℚ → ℚ)) (weight : Bool) (reshape : Bool)
    (grouper : String) (wn : String) : Except Err Table :=
  if reduce.isSome && aggregator.isSome then .error .configConflict
  else
    match mapME (fun kr =>
        match reduce with
        | some r => strideFrame r wn grouper kr.1 kr.2
        | none => aggFrame aggregator weight wn grouper kr.1 kr.2)
      (sortByKey store) with
    | .error e => .error e
    | .ok frames =>
      match (if reshape then
          reshapeStep reduce grouper wn (concatFrames frames)
        else .ok (concatFrames frames)) with
      | .error e => .error e
      | .ok df =>
        match dropStep reduce grouper df with
        | .error e => .error e
        | .ok df2 => .ok (toTable df2)

/-! ### `plumed_to_h5` -/

/-- A Python value, as far as the argument handling of `plumed_to_h5`
distinguishes values: `None`, a string, a list, a callable (abstract
tag), or a mapping (abstract tag with its entry count). -/
inductive PyVal where
  | pnone : PyVal
  | pstr (s : String) : PyVal
  | plist (l : List PyVal) : PyVal
  | pfunc (tag : Nat) : PyVal
  | pdict (tag : Nat) (size : Nat) : PyVal

/-- Python `isinstance(x, list)`. -/
def PyVal.isList : PyVal → Bool
  | .plist _ => true
  | _ => false

/-- Python `x is None`. -/
def PyVal.isNone : PyVal → Bool
  | .pnone => true
  | _ => false

/-- Python subscription `x[i]` with an integer index: lists and strings
index positionally (`IndexError` out of range), mappings raise
`KeyError` for an integer key they do not hold (modelled as always
missing), and `None` / callables are not subscriptable (`TypeError`). -/
def pySubscript : PyVal → Nat → Except Err PyVal
  | .plist l, i =>
    match l.get? i with
    | some v => .ok v
    | none => .error .indexError
  | .pstr s, i =>
    match s.data.get? i with
    | some c => .ok (.pstr ⟨[c]⟩)
    | none => .error .indexError
  | .pdict _ _, _ => .error (.keyError "kwargs")
  | _, _ => .error .notSubscriptable

/-- `TypeError`: object has no `len()`. -/
def pyLen : PyVal → Except Err Nat
  | .plist l => .ok l.length
  | .pstr s => .ok s.length
  | .pdict _ n => .ok n
  | _ => .error .noLength

/-- Python iteration: lists yield elements, strings yield characters,
other values of interest here raise `TypeError: not iterable`. -/
def pyIter : PyVal → Except Err (List PyVal)
  | .plist l => .ok l
  | .pstr s => .ok (s.data.map (fun c => .pstr ⟨[c]⟩))
  | _ => .error .notIterable

/-- The external collaborators of the ingestion pipeline (spec §4.4).
Modelled from the spec: `read_plumed_fields` lives in the repository's
`rw` module, which is not under `src/`; the spec treats it as "an
external field-name reader".  `pd.read_csv(..., chunksize=...)` and the
semantics of a caller-supplied chunk-transforming callable are likewise
external, so chunks are abstract frames produced by the file system. -/
structure FileSystem where
  fields : String → List String
  chunks : String → Nat → List Frame
  applyFunc : Nat → PyVal → Frame → Frame

/-- `chunk.sort_index(axis=1)`: sort the columns of a frame by name. -/
def sortCols (f : Frame) : Frame :=
  { f with cols := f.cols.insertionSort ColLe }

/-- `chunk['file'] = j`: append a constant numeric column. -/
def addFileCol (f : Frame) (j : Nat) : Frame :=
  { f with cols := f.cols ++ [("file", List.replicate f.nrows (Cell.num (j : ℚ)))] }

/-- The chunk loop of `plumed_to_h5` for one file: transform each chunk
by `func[j](chunk, **kwargs[j])` when `func` is not `None` (else tag the
chunk with the file number), sort its columns, and append it to the
write log for the target HDF file. -/
def chunkLoop (fsm : FileSystem) (hdf_file : String) (func kwargs : PyVal)
    (j : Nat) : List Frame → Except Err (List (String × Frame))
  | [] => .ok []
  | chunk :: rest =>
    let step : Except Err Frame :=
      if !func.isNone then
        match pySubscript func j with
        | .error e => .error e
        | .ok fj =>
          match pySubscript kwargs j with
          | .error e => .error e
          | .ok kj =>
            match fj with
            | .pfunc tag => .ok (fsm.applyFunc tag kj chunk)
            | .pnone => .error .nullInvocation
            | _ => .error .notCallable
      else .ok (addFileCol chunk j)
    match step with
    | .error e => .error e
    | .ok chunk' =>
      match chunkLoop fsm hdf_file func kwargs j rest with
      | .error e => .error e
      | .ok writes => .ok ((hdf_file, sortCols chunk') :: writes)

/-- The file loop of `plumed_to_h5`: read each file's field names, read
it in chunks, and process every chunk. -/
def fileLoop (fsm : FileSystem) (hdf_file : String) (func kwargs : PyVal)
    (chunksize : Nat) (j : Nat) : List PyVal →
    Except Err (List (String × Frame))
  | [] => .ok []
  | file :: rest =>
    match file with
    | .pstr path =>
      match chunkLoop fsm hdf_file func kwargs j (fsm.chunks path chunksize) with
      | .error e => .error e
      | .ok ws =>
        match fileLoop fsm hdf_file func kwargs chunksize (j + 1) rest with
        | .error e => .error e
        | .ok ws' => .ok (ws ++ ws')
    | _ => .error .typeError

/-- The guard `if func[0] is not None and len(func) != len(files)` of
`plumed_to_h5` (given the already-computed `func[0]`): `len` is only
evaluated when `func[0]` is not `None`, and a count mismatch is a
`ValueError`. -/
def lenCheck (f0 func files : PyVal) : Except Err Unit :=
  if f0.isNone then .ok ()
  else
    match pyLen func, pyLen files with
    | .error e, _ => .error e
    | _, .error e => .error e
    | .ok nf, .ok nl => if nf ≠ nl then .error .valueError else .ok ()

/-- `plumed_to_h5`: read PLUMED files and dump them to a pytables HDF5
file, returning the log of chunk writes.  The argument handling is
modelled exactly as written, including the inverted `isinstance` checks
(`if isinstance(files, list): files = [files]`) and the unguarded
`func[0]` subscription. -/
def plumedToH5 (fsm : FileSystem) (files : PyVal) (hdf_file : String)
    (func : PyVal) (chunksize : Nat) (kwargs : PyVal) :
    Except Err (List (String × Frame)) :=
  let files := if files.isList then PyVal.plist [files] else files
  let func := if func.isList then PyVal.plist [func] else func
  let kwargs := if kwargs.isList then PyVal.plist [kwargs] else kwargs
  match pySubscript func 0 with
  | .error e => .error e
  | .ok f0 =>
    match lenCheck f0 func files with
    | .error e => .error e
    | .ok _ =>
      match pyIter files with
      | .error e => .error e
      | .ok fileList => fileLoop fsm hdf_file func kwargs chunksize 0 fileList

/-- The observable field names of a record: every field except `time`
and the weight field (the fields aggregate mode reduces). -/
def obsNames (wn : String) (names : List String) : List String :=
  names.filter (fun k => decide (¬(k = "time" ∨ k = wn)))

/-- A name with no trailing decimal digit (such as `time`, `ww`, `ff`):
stripping trailing digits leaves it unchanged. -/
def noTrailingDigit (s : String) : Prop := stripDigits s = s

/-- An indexed observable name `<base><digits>`: it carries a nonempty
run of trailing decimal digits and a nonempty base. -/
def indexedName (s : String) : Prop := stripDigits s ≠ s ∧ stripDigits s ≠ ""

/-! ### Theorems -/

section Helpers

variable {β γ : Type}

theorem lookup_map_val (g : String → β → γ) (l : List (String × β))
    (k : String) :
    (l.map (fun p => (p.1, g p.1 p.2))).lookup k = (l.lookup k).map (g k) := by
  induction l with
  | nil => rfl
  | cons p rest ih =>
    obtain ⟨a, b⟩ := p
    by_cases h : k = a
    · simp [List.lookup, h]
    · have hba : (k == a) = false := by simp [h]
      simp [List.lookup, hba, ih]

theorem lookup_append_left (l₁ l₂ : List (String × β)) (k : String)
    (h : (l₁.lookup k).isSome) : (l₁ ++ l₂).lookup k = l₁.lookup k := by
  induction l₁ with
  | nil => exact Bool.noConfusion h
  | cons p rest ih =>
    obtain ⟨a, b⟩ := p
    by_cases hk : k = a
    · simp [List.lookup, hk]
    · have hba : (k == a) = false := by simp [hk]
      simp only [List.lookup, hba] at h
      simp only [List.cons_append, List.lookup, hba]
      exact ih h

theorem lookup_append_right (l₁ l₂ : List (String × β)) (k : String)
    (h : l₁.lookup k = none) : (l₁ ++ l₂).lookup k = l₂.lookup k := by
  induction l₁ with
  | nil => rfl
  | cons p rest ih =>
    obtain ⟨a, b⟩ := p
    by_cases hk : k = a
    · simp [List.lookup, hk] at h
    · have hba : (k == a) = false := by simp [hk]
      simp only [List.lookup, hba] at h
      simp only [List.cons_append, List.lookup, hba]
      exact ih h

theorem lookup_eq_none_of_not_mem (l : List (String × β)) (k : String)
    (h : k ∉ l.map Prod.fst) : l.lookup k = none := by
  induction l with
  | nil => rfl
  | cons p rest ih =>
    simp only [List.map_cons, List.mem_cons] at h
    push_neg at h
    have : (k == p.1) = false := by simp [h.1]
    simp only [List.lookup, this]
    exact ih h.2

theorem lookup_mem {l : List (String × β)} {k : String} {v : β}
    (h : l.lookup k = some v) : (k, v) ∈ l := by
  induction l with
  | nil => simp [List.lookup] at h
  | cons p rest ih =>
    obtain ⟨a, b⟩ := p
    by_cases hk : k = a
    · subst hk
      simp only [List.lookup, beq_self_eq_true] at h
      cases h
      exact List.mem_cons_self _ _
    · have hba : (k == a) = false := by simp [hk]
      simp only [List.lookup, hba] at h
      exact List.mem_cons_of_mem _ (ih h)

theorem lookup_map_self (g : String → γ) (names : List String) (c : String) :
    (names.map (fun n => (n, g n))).lookup c
      = if c ∈ names then some (g c) else none := by
  induction names with
  | nil => rfl
  | cons n rest ih =>
    by_cases h : c = n
    · simp [List.lookup, h]
    · have hba : (c == n) = false := by simp [h]
      simp [List.lookup, hba, h, ih]

theorem mem_foldl_dedup {α : Type} [DecidableEq α] (l : List α)
    (acc : List α) (x : α) :
    (x ∈ l.foldl (fun acc x => if x ∈ acc then acc else acc ++ [x]) acc)
      ↔ x ∈ acc ∨ x ∈ l := by
  induction l generalizing acc with
  | nil => simp
  | cons y rest ih =>
    simp only [List.foldl_cons, List.mem_cons]
    by_cases hy : y ∈ acc
    · rw [if_pos hy, ih]
      constructor
      · rintro (h | h)
        · exact Or.inl h
        · exact Or.inr (Or.inr h)
      · rintro (h | h | h)
        · exact Or.inl h
        · exact Or.inl (h ▸ hy)
        · exact Or.inr h
    · rw [if_neg hy, ih]
      simp only [List.mem_append, List.mem_singleton]
      tauto

theorem mem_dedupKeep {α : Type} [DecidableEq α] (l : List α) (x : α) :
    x ∈ dedupKeep l ↔ x ∈ l := by
  unfold dedupKeep
  rw [mem_foldl_dedup]
  simp

theorem mapME_ok_forall {α β : Type} {f : α → Except Err β} {l : List α}
    {ys : List β} (h : mapME f l = .ok ys) :
    ∀ x ∈ l, ∃ y, f x = .ok y := by
  induction l generalizing ys with
  | nil => intro x hx; simp at hx
  | cons a rest ih =>
    intro x hx
    simp only [mapME] at h
    cases hfa : f a with
    | error e => rw [hfa] at h; cases h
    | ok y =>
      rw [hfa] at h
      cases hrest : mapME f rest with
      | error e => rw [hrest] at h; cases h
      | ok ys' =>
        rcases List.mem_cons.mp hx with rfl | hx'
        · exact ⟨y, hfa⟩
        · exact ih hrest x hx'

theorem sum_map_div (l : List ℚ) (c : ℚ) :
    (l.map (fun x => x / c)).sum = l.sum / c := by
  induction l with
  | nil => simp
  | cons x rest ih => simp [ih, add_div]

theorem sum_normalize {w : List ℚ} (h : w.sum ≠ 0) :
    (normalize w).sum = 1 := by
  unfold normalize
  rw [sum_map_div, div_self h]

theorem everyNthAux_get? (s : Nat) (l : List ℚ) :
    ∀ (c i : Nat),
      (everyNthAux (s + 1) l c).get? i = l.get? (c + i * (s + 1)) := by
  induction l with
  | nil => intro c i; simp [everyNthAux]
  | cons x xs ih =>
    intro c i
    cases c with
    | zero =>
      cases i with
      | zero => simp [everyNthAux]
      | succ j =>
        have hidx : 0 + (j + 1) * (s + 1) = (s + j * (s + 1)) + 1 := by ring
        rw [hidx]
        simp only [everyNthAux, List.get?_cons_succ]
        exact ih s j
    | succ c' =>
      have hidx : (c' + 1) + i * (s + 1) = (c' + i * (s + 1)) + 1 := by ring
      rw [hidx]
      simp only [everyNthAux, List.get?_cons_succ]
      exact ih c' i

theorem everyNth_get? (r : Nat) (hr : 0 < r) (l : List ℚ) (i : Nat) :
    (everyNth r l).get? i = l.get? (i * r) := by
  obtain ⟨s, rfl⟩ : ∃ s, r = s + 1 := ⟨r - 1, by omega⟩
  unfold everyNth
  rw [everyNthAux_get? s l 0 i, Nat.zero_add]

theorem everyNthAux_length (s : Nat) (l : List ℚ) :
    ∀ (c : Nat), c ≤ s →
      (everyNthAux (s + 1) l c).length = (l.length + s - c) / (s + 1) := by
  induction l with
  | nil =>
    intro c hc
    simp only [everyNthAux, List.length_nil]
    rw [Nat.div_eq_of_lt (by omega)]
  | cons x xs ih =>
    intro c hc
    cases c with
    | zero =>
      simp only [everyNthAux, List.length_cons]
      rw [Nat.add_sub_cancel, ih s (Nat.le_refl s)]
      have h1 : xs.length + s - s = xs.length := by omega
      have h2 : xs.length + 1 + s - 0 = xs.length + (s + 1) := by omega
      rw [h1, h2, Nat.add_div_right _ (Nat.succ_pos s)]
    | succ c' =>
      simp only [everyNthAux, List.length_cons]
      rw [ih c' (by omega)]
      congr 1
      omega

theorem everyNth_length (r : Nat) (hr : 0 < r) (l : List ℚ) :
    (everyNth r l).length = (l.length + r - 1) / r := by
  obtain ⟨s, rfl⟩ : ∃ s, r = s + 1 := ⟨r - 1, by omega⟩
  unfold everyNth
  have h : l.length + s - 0 = l.length + (s + 1) - 1 := by omega
  rw [everyNthAux_length s l 0 (Nat.zero_le s), h]

theorem sameLens_lengths {l : List (String × List ℚ)}
    (h : sameLens l = true) {p : String × List ℚ} (hp : p ∈ l) :
    p.2.length = ((l.head?.map (fun q => q.2.length)).getD 0) := by
  cases l with
  | nil => simp at hp
  | cons q rest =>
    obtain ⟨a, b⟩ := q
    simp only [sameLens, List.all_eq_true] at h
    rcases List.mem_cons.mp hp with rfl | hp'
    · rfl
    · have := h p hp'
      simpa using this

/-- A successful pipeline run means every simulation record was reduced
to a per-record frame successfully. -/
theorem frames_ok_of_pipeline_ok {store : Store} {reduce : Option Nat}
    {agg : Option (List ℚ → ℚ)} {weight reshape : Bool}
    {grouper wn : String} {t : Table}
    (hok : hdfToDataframe store reduce agg weight reshape grouper wn = .ok t)
    {key : String} {rec : Record} (hmem : (key, rec) ∈ store) :
    ∃ F, (match reduce with
          | some r => strideFrame r wn grouper key rec
          | none => aggFrame agg weight wn grouper key rec) = .ok F := by
  unfold hdfToDataframe at hok
  by_cases hg : (reduce.isSome && agg.isSome) = true
  · rw [if_pos hg] at hok; cases hok
  · rw [if_neg hg] at hok
    cases h : mapME (fun kr =>
        match reduce with
        | some r => strideFrame r wn grouper kr.1 kr.2
        | none => aggFrame agg weight wn grouper kr.1 kr.2)
      (sortByKey store) with
    | error e => rw [h] at hok; cases hok
    | ok frames =>
      have hall := mapME_ok_forall h
      have hmem' : (key, rec) ∈ sortByKey store :=
        ((List.perm_insertionSort EntryLe store).mem_iff).mpr hmem
      exact hall (key, rec) hmem'

/-- Variant of `frames_ok_of_pipeline_ok` phrased with `Except.isOk`. -/
theorem frames_ok_of_pipeline_isOk {store : Store} {reduce : Option Nat}
    {agg : Option (List ℚ → ℚ)} {weight reshape : Bool}
    {grouper wn : String}
    (hok : (hdfToDataframe store reduce agg weight reshape grouper wn).isOk
            = true)
    {key : String} {rec : Record} (hmem : (key, rec) ∈ store) :
    ∃ F, (match reduce with
          | some r => strideFrame r wn grouper key rec
          | none => aggFrame agg weight wn grouper key rec) = .ok F := by
  cases hres : hdfToDataframe store reduce agg weight reshape grouper wn with
  | error e => rw [hres] at hok; exact Bool.noConfusion hok
  | ok t => exact frames_ok_of_pipeline_ok hres hmem

/-- Dissection of a successful stride-mode per-record reduction. -/
theorem strideFrame_ok_elim {r : Nat} {wn grouper key : String}
    {rec : Record} {F : Frame}
    (h : strideFrame r wn grouper key rec = .ok F) :
    0 < r ∧ sameLens (strideRed r rec) = true ∧
    ∃ w, (strideRed r rec).lookup wn = some w ∧
      F = { index := rangeIndex (strideN r rec),
            cols := ((strideRed r rec).map (fun p =>
                (p.1, (if p.1 = wn then normalize w else p.2).map Cell.num)))
              ++ [(grouper, List.replicate (strideN r rec) (Cell.str key))] } := by
  unfold strideFrame at h
  by_cases hr : r = 0
  · rw [if_pos hr] at h; cases h
  · rw [if_neg hr] at h
    by_cases hs : sameLens (strideRed r rec) = true
    · rw [hs] at h
      simp only [Bool.not_true, if_neg (by simp : ¬(false = true))] at h
      cases hw : (strideRed r rec).lookup wn with
      | none => rw [hw] at h; cases h
      | some w =>
        rw [hw] at h
        refine ⟨Nat.pos_of_ne_zero hr, hs, w, rfl, ?_⟩
        injection h with h'
        exact h'.symm
    · have hs' : sameLens (strideRed r rec) = false :=
        Bool.eq_false_iff.mpr hs
      rw [hs'] at h
      simp only [Bool.not_false, if_pos rfl] at h
      cases h

/-- Dissection of a successful aggregate-mode per-record frame. -/
theorem aggFrame_ok_elim {agg : Option (List ℚ → ℚ)} {weight : Bool}
    {wn grouper key : String} {rec : Record} {F : Frame}
    (h : aggFrame agg weight wn grouper key rec = .ok F) :
    ∃ cs, aggCols agg weight wn rec rec = .ok cs ∧
      F = { index := [[Cell.str key]],
            cols := cs ++ [(grouper, [Cell.str key])] } := by
  unfold aggFrame at h
  cases hcs : aggCols agg weight wn rec rec with
  | error e => rw [hcs] at h; cases h
  | ok cs =>
    rw [hcs] at h
    cases h
    exact ⟨cs, rfl, rfl⟩

/-- The looked-up value of a field in the aggregate-mode column list. -/
theorem aggCols_lookup {weight : Bool} {wn : String} {rec : Record}
    {f : List ℚ → ℚ} {w : List ℚ}
    (hw : weight = true → rec.lookup wn = some w) :
    ∀ {l : List (String × List ℚ)} {cs : List (String × List Cell)},
      aggCols (some f) weight wn rec l = .ok cs →
      ∀ {k : String} {v : List ℚ}, l.lookup k = some v →
        k ≠ "time" → k ≠ wn →
        cs.lookup k = some [Cell.num
          (f (if weight then List.zipWith (· * ·) v w else v))] := by
  intro l
  induction l with
  | nil => intro cs h k v hkv; cases hkv
  | cons p rest ih =>
    intro cs h k v hkv hkt hkw
    obtain ⟨k₀, v₀⟩ := p
    simp only [aggCols] at h
    by_cases hskip : k₀ = "time" ∨ k₀ = wn
    · rw [if_pos hskip] at h
      have hkk : k ≠ k₀ := by
        rcases hskip with rfl | rfl
        · exact hkt
        · exact hkw
      have hba : (k == k₀) = false := by simp [hkk]
      simp only [List.lookup, hba] at hkv
      exact ih h hkv hkt hkw
    · rw [if_neg hskip] at h
      cases harg : aggArg weight wn rec v₀ with
      | error e => rw [harg] at h; cases h
      | ok xv =>
        rw [harg] at h
        cases hrest : aggCols (some f) weight wn rec rest with
        | error e => rw [hrest] at h; cases h
        | ok cs' =>
          rw [hrest] at h
          cases h
          by_cases hkk : k = k₀
          · subst hkk
            simp only [List.lookup, beq_self_eq_true] at hkv ⊢
            cases hkv
            have hxv : xv = if weight then List.zipWith (· * ·) v w else v := by
              cases hwt : weight with
              | false =>
                subst hwt
                unfold aggArg at harg
                simp only [Bool.false_eq_true, if_neg (by simp : ¬False)]
                  at harg ⊢
                injection harg with h''
                exact h''.symm
              | true =>
                subst hwt
                unfold aggArg at harg
                rw [if_pos rfl, hw rfl] at harg
                simp only [aggProd] at harg
                by_cases hlen : v.length = w.length
                · rw [if_pos hlen] at harg
                  rw [if_pos rfl]
                  injection harg with h''
                  exact h''.symm
                · rw [if_neg hlen] at harg
                  cases harg
            rw [hxv]
          · have hba : (k == k₀) = false := by simp [hkk]
            simp only [List.lookup, hba] at hkv ⊢
            exact ih hrest hkv hkt hkw

/-- The aggregate-mode column list only holds keys of the record. -/
theorem aggCols_keys {agg : Option (List ℚ → ℚ)} {weight : Bool}
    {wn : String} {rec : Record} :
    ∀ {l : List (String × List ℚ)} {cs : List (String × List Cell)},
      aggCols agg weight wn rec l = .ok cs →
      ∀ x, x ∈ cs.map Prod.fst → x ∈ l.map Prod.fst := by
  intro l
  induction l with
  | nil =>
    intro cs h x hx
    cases h
    simp at hx
  | cons p rest ih =>
    intro cs h x hx
    obtain ⟨k₀, v₀⟩ := p
    simp only [aggCols] at h
    by_cases hskip : k₀ = "time" ∨ k₀ = wn
    · rw [if_pos hskip] at h
      exact List.mem_cons_of_mem _ (ih h x hx)
    · rw [if_neg hskip] at h
      cases harg : aggArg weight wn rec v₀ with
      | error e => rw [harg] at h; cases h
      | ok xv =>
        rw [harg] at h
        cases agg with
        | none => cases h
        | some f =>
          cases hrest : aggCols (some f) weight wn rec rest with
          | error e => rw [hrest] at h; cases h
          | ok cs' =>
            rw [hrest] at h
            cases h
            simp only [List.map_cons, List.mem_cons] at hx ⊢
            rcases hx with rfl | hx'
            · exact Or.inl rfl
            · exact Or.inr (ih hrest x hx')

end Helpers

section Orders

theorem char_toNat_inj {a b : Char} (h : a.toNat = b.toNat) : a = b :=
  Char.ext (UInt32.toNat.inj h)

theorem strLeAux_total : ∀ (a b : List Char),
    strLeAux a b = true ∨ strLeAux b a = true := by
  intro a
  induction a with
  | nil => intro b; exact Or.inl rfl
  | cons x xs ih =>
    intro b
    cases b with
    | nil => exact Or.inr rfl
    | cons y ys =>
      by_cases hxy : x = y
      · subst hxy
        simp only [strLeAux, if_pos rfl]
        exact ih ys
      · have hyx : ¬y = x := fun h => hxy h.symm
        simp only [strLeAux, if_neg hxy, if_neg hyx]
        rcases Nat.lt_or_ge x.toNat y.toNat with h | h
        · exact Or.inl (by simpa using h)
        · have : y.toNat < x.toNat :=
            Nat.lt_of_le_of_ne h (fun hc => hxy (char_toNat_inj hc.symm))
          exact Or.inr (by simpa using this)

theorem strLeAux_antisymm : ∀ {a b : List Char},
    strLeAux a b = true → strLeAux b a = true → a = b := by
  intro a
  induction a with
  | nil =>
    intro b _ hba
    cases b with
    | nil => rfl
    | cons y ys => exact Bool.noConfusion hba
  | cons x xs ih =>
    intro b hab hba
    cases b with
    | nil => exact Bool.noConfusion hab
    | cons y ys =>
      by_cases hxy : x = y
      · subst hxy
        simp only [strLeAux, if_pos rfl] at hab hba
        rw [ih hab hba]
      · have hyx : ¬y = x := fun h => hxy h.symm
        simp only [strLeAux, if_neg hxy, if_neg hyx,
          decide_eq_true_eq] at hab hba
        omega

theorem strLeAux_trans : ∀ {a b c : List Char},
    strLeAux a b = true → strLeAux b c = true → strLeAux a c = true := by
  intro a
  induction a with
  | nil => intro b c _ _; rfl
  | cons x xs ih =>
    intro b c hab hbc
    cases b with
    | nil => exact Bool.noConfusion hab
    | cons y ys =>
      cases c with
      | nil => exact Bool.noConfusion hbc
      | cons z zs =>
        by_cases hxy : x = y
        · subst hxy
          simp only [strLeAux, if_pos rfl] at hab
          by_cases hyz : x = z
          · subst hyz
            simp only [strLeAux, if_pos rfl] at hbc ⊢
            exact ih hab hbc
          · simp only [strLeAux, if_neg hyz] at hbc ⊢
            exact hbc
        · simp only [strLeAux, if_neg hxy, decide_eq_true_eq] at hab
          by_cases hyz : y = z
          · subst hyz
            simp only [strLeAux, if_neg hxy, decide_eq_true_eq]
            exact hab
          · simp only [strLeAux, if_neg hyz, decide_eq_true_eq] at hbc
            have hxz : ¬x = z := by
              intro hc
              subst hc
              exact absurd (Nat.lt_trans hab hbc) (Nat.lt_irrefl _)
            simp only [strLeAux, if_neg hxz, decide_eq_true_eq]
            exact Nat.lt_trans hab hbc

theorem strLe_total (a b : String) : strLe a b = true ∨ strLe b a = true :=
  strLeAux_total a.data b.data

theorem strLe_antisymm {a b : String} (hab : strLe a b = true)
    (hba : strLe b a = true) : a = b :=
  String.ext (strLeAux_antisymm hab hba)

theorem strLe_trans {a b c : String} (hab : strLe a b = true)
    (hbc : strLe b c = true) : strLe a c = true :=
  strLeAux_trans hab hbc

theorem cellLe_total (a b : Cell) : cellLe a b = true ∨ cellLe b a = true := by
  cases a <;> cases b <;> simp [cellLe]
  · exact le_total _ _
  · exact strLeAux_total _ _

theorem cellLe_antisymm : ∀ {a b : Cell},
    cellLe a b = true → cellLe b a = true → a = b := by
  intro a b hab hba
  cases a <;> cases b <;> simp_all [cellLe]
  · exact le_antisymm hab hba
  · exact strLe_antisymm hab hba

theorem cellLe_trans : ∀ {a b c : Cell},
    cellLe a b = true → cellLe b c = true → cellLe a c = true := by
  intro a b c hab hbc
  cases a <;> cases b <;> cases c <;> simp_all [cellLe]
  · exact le_trans hab hbc
  · exact strLe_trans hab hbc

theorem cellsLe_refl : ∀ (a : List Cell), cellsLe a a = true := by
  intro a
  induction a with
  | nil => rfl
  | cons x xs ih => simp [cellsLe, ih]

theorem cellsLe_total : ∀ (a b : List Cell),
    cellsLe a b = true ∨ cellsLe b a = true := by
  intro a
  induction a with
  | nil => intro b; exact Or.inl rfl
  | cons x xs ih =>
    intro b
    cases b with
    | nil => exact Or.inr rfl
    | cons y ys =>
      by_cases hxy : x = y
      · subst hxy
        simp only [cellsLe, if_pos rfl]
        exact ih ys
      · have hyx : ¬y = x := fun h => hxy h.symm
        simp only [cellsLe, if_neg hxy, if_neg hyx]
        rcases cellLe_total x y with h | h
        · exact Or.inl h
        · exact Or.inr h

theorem cellsLe_trans : ∀ {a b c : List Cell},
    cellsLe a b = true → cellsLe b c = true → cellsLe a c = true := by
  intro a
  induction a with
  | nil => intro b c _ _; rfl
  | cons x xs ih =>
    intro b c hab hbc
    cases b with
    | nil => exact Bool.noConfusion hab
    | cons y ys =>
      cases c with
      | nil => exact Bool.noConfusion hbc
      | cons z zs =>
        by_cases hxy : x = y
        · subst hxy
          simp only [cellsLe, if_pos rfl] at hab
          by_cases hyz : x = z
          · subst hyz
            simp only [cellsLe, if_pos rfl] at hbc ⊢
            exact ih hab hbc
          · simp only [cellsLe, if_neg hyz] at hbc ⊢
            exact hbc
        · simp only [cellsLe, if_neg hxy] at hab
          by_cases hyz : y = z
          · subst hyz
            simp only [cellsLe, if_neg hxy]
            exact hab
          · simp only [cellsLe, if_neg hyz] at hbc
            have hxz : ¬x = z := by
              intro hc
              subst hc
              exact hxy (cellLe_antisymm hab hbc)
            simp only [cellsLe, if_neg hxz]
            exact cellLe_trans hab hbc

instance : IsTotal (String × Record) EntryLe :=
  ⟨fun a b => strLe_total a.1 b.1⟩

instance : IsTrans (String × Record) EntryLe :=
  ⟨fun _ _ _ hab hbc => strLe_trans hab hbc⟩

instance : IsTotal (String × List Cell) ColLe :=
  ⟨fun a b => strLe_total a.1 b.1⟩

instance : IsTrans (String × List Cell) ColLe :=
  ⟨fun _ _ _ hab hbc => strLe_trans hab hbc⟩

instance : IsTotal (List Cell × List Cell) RowLe :=
  ⟨fun a b => cellsLe_total a.1 b.1⟩

instance : IsTrans (List Cell × List Cell) RowLe :=
  ⟨fun _ _ _ hab hbc => cellsLe_trans hab hbc⟩

/-- Two sorted permutations of each other are equal, given antisymmetry
of the order on the elements involved. -/
theorem sorted_perm_eq {α : Type} {r : α → α → Prop} :
    ∀ {l₁ l₂ : List α}, l₁.Perm l₂ → l₁.Sorted r → l₂.Sorted r →
      (∀ a ∈ l₁, ∀ b ∈ l₁, r a b → r b a → a = b) → l₁ = l₂ := by
  intro l₁
  induction l₁ with
  | nil =>
    intro l₂ hp _ _ _
    exact hp.nil_eq
  | cons a t ih =>
    intro l₂ hp hs₁ hs₂ anti
    cases l₂ with
    | nil =>
      have := hp.length_eq
      simp at this
    | cons b t₂ =>
      have hab : a = b := by
        have hba : b ∈ a :: t := hp.symm.subset (List.mem_cons_self _ _)
        have hab' : a ∈ b :: t₂ := hp.subset (List.mem_cons_self _ _)
        rcases List.mem_cons.mp hba with heq | hbt
        · exact heq.symm
        · rcases List.mem_cons.mp hab' with heq | hat₂
          · exact heq
          · have hrab : r a b := ((List.sorted_cons.mp hs₁).1) b hbt
            have hrba : r b a := ((List.sorted_cons.mp hs₂).1) a hat₂
            have hbmem : b ∈ a :: t := List.mem_cons_of_mem _ hbt
            exact anti a (List.mem_cons_self _ _) b hbmem hrab hrba
      subst hab
      have hp' : t.Perm t₂ := hp.cons_inv
      have ht : t = t₂ := ih hp' (List.sorted_cons.mp hs₁).2
        (List.sorted_cons.mp hs₂).2
        (fun x hx y hy => anti x (List.mem_cons_of_mem _ hx)
          y (List.mem_cons_of_mem _ hy))
      rw [ht]

/-- A pipeline run errors whenever some record's per-record reduction
errors. -/
theorem pipeline_error_of_record_error {store : Store}
    {reduce : Option Nat} {agg : Option (List ℚ → ℚ)}
    {weight reshape : Bool} {grouper wn : String}
    {key : String} {rec : Record} (hmem : (key, rec) ∈ store)
    (hbad : ∀ (F : Frame), (match reduce with
          | some r => strideFrame r wn grouper key rec
          | none => aggFrame agg weight wn grouper key rec) ≠ .ok F) :
    ∃ e, hdfToDataframe store reduce agg weight reshape grouper wn
      = .error e := by
  cases hres : hdfToDataframe store reduce agg weight reshape grouper wn with
  | error e => exact ⟨e, rfl⟩
  | ok t =>
    obtain ⟨F, hF⟩ := frames_ok_of_pipeline_ok hres hmem
    exact absurd hF (hbad F)

/-- A successful pipeline run returns the canonical sort of some frame. -/
theorem pipeline_ok_toTable {store : Store} {reduce : Option Nat}
    {agg : Option (List ℚ → ℚ)} {weight reshape : Bool}
    {grouper wn : String} {t : Table}
    (hok : hdfToDataframe store reduce agg weight reshape grouper wn
      = .ok t) : ∃ df, t = toTable df := by
  unfold hdfToDataframe at hok
  split at hok
  · cases hok
  · split at hok
    · cases hok
    · split at hok
      · cases hok
      · split at hok
        · cases hok
        · injection hok with h'
          exact ⟨_, h'.symm⟩

theorem dropWhile_idem {α : Type} (p : α → Bool) :
    ∀ (l : List α), (l.dropWhile p).dropWhile p = l.dropWhile p := by
  intro l
  induction l with
  | nil => rfl
  | cons x xs ih =>
    cases hp : p x with
    | true => simp [List.dropWhile_cons, hp, ih]
    | false => simp [List.dropWhile_cons, hp]

theorem dropWhile_eq_self_head {α : Type} {p : α → Bool} {l : List α}
    (h : l.dropWhile p = l) : ∀ x ∈ l.head?, p x = false := by
  cases l with
  | nil => intro x hx; cases hx
  | cons y ys =>
    intro x hx
    cases hx
    cases hp : p y with
    | true =>
      rw [List.dropWhile_cons, hp, if_pos rfl] at h
      have hle := (List.dropWhile_sublist (l := ys) p).length_le
      rw [h] at hle
      simp at hle
    | false => rfl

theorem stripDigits_data (s : String) :
    (stripDigits s).data = (s.data.reverse.dropWhile Char.isDigit).reverse :=
  rfl

theorem stripDigits_noTrailing (s : String) :
    noTrailingDigit (stripDigits s) := by
  unfold noTrailingDigit
  apply String.ext
  rw [stripDigits_data, stripDigits_data, List.reverse_reverse,
    dropWhile_idem]

/-- A matched column decomposes as the stub plus a nonempty digit run. -/
theorem digitSuffix?_some_decomp {st c : String} {k : Nat}
    (h : digitSuffix? st c = some k) :
    ∃ d, c.data = st.data ++ d ∧ d ≠ [] ∧ d.all Char.isDigit = true := by
  unfold digitSuffix? at h
  by_cases hpre : st.data.isPrefixOf c.data = true
  · rw [if_pos hpre] at h
    obtain ⟨t, ht⟩ := List.isPrefixOf_iff_prefix.mp hpre
    have hdrop : c.data.drop st.data.length = t := by
      rw [← ht]
      exact List.drop_left _ _
    rw [hdrop] at h
    by_cases hemp : t.isEmpty = true
    · rw [if_pos hemp] at h; cases h
    · rw [if_neg hemp] at h
      by_cases hall : t.all Char.isDigit = true
      · rw [if_pos hall] at h
        exact ⟨t, ht.symm, by simpa [List.isEmpty_iff] using hemp, hall⟩
      · rw [if_neg hall] at h; cases h
  · rw [if_neg hpre] at h; cases h

/-- A column matched by any stub carries a trailing digit, so stripping
changes it. -/
theorem stripDigits_ne_of_digitSuffix {st c : String} {k : Nat}
    (h : digitSuffix? st c = some k) : stripDigits c ≠ c := by
  obtain ⟨d, hdc, hdne, hall⟩ := digitSuffix?_some_decomp h
  intro hc
  have hdata : (c.data.reverse.dropWhile Char.isDigit).reverse = c.data := by
    rw [← stripDigits_data, hc]
  have hdw : c.data.reverse.dropWhile Char.isDigit = c.data.reverse := by
    have := congrArg List.reverse hdata
    rwa [List.reverse_reverse] at this
  cases hrev : d.reverse with
  | nil =>
    have : d = [] := by
      have := congrArg List.reverse hrev
      rwa [List.reverse_reverse] at this
    exact hdne this
  | cons y ys =>
    have hy : c.data.reverse.head? = some y := by
      rw [hdc, List.reverse_append, hrev]
      rfl
    have hyd : y ∈ d := by
      have : y ∈ d.reverse := by rw [hrev]; exact List.mem_cons_self _ _
      exact List.mem_reverse.mp this
    have hpy : Char.isDigit y = true := by
      rw [List.all_eq_true] at hall
      exact hall y hyd
    have := dropWhile_eq_self_head hdw y (by rw [hy]; rfl)
    rw [hpy] at this
    cases this

/-- A name with no trailing digit is matched by no stub at all. -/
theorem digitSuffix?_eq_none_of_noTrailing {c : String}
    (h : noTrailingDigit c) (st : String) : digitSuffix? st c = none := by
  cases hd : digitSuffix? st c with
  | none => rfl
  | some k => exact absurd h (stripDigits_ne_of_digitSuffix hd)

/-- An indexed observable is matched by its own digit-stripped stub. -/
theorem digitSuffix?_of_indexedName {c : String} (h : indexedName c) :
    (digitSuffix? (stripDigits c) c).isSome = true := by
  have hpart : c.data = (stripDigits c).data
      ++ (c.data.reverse.takeWhile Char.isDigit).reverse := by
    rw [stripDigits_data, ← List.reverse_append,
      List.takeWhile_append_dropWhile, List.reverse_reverse]
  have hdne : (c.data.reverse.takeWhile Char.isDigit).reverse ≠ [] := by
    intro hnil
    apply h.1
    apply String.ext
    rw [hpart, hnil, List.append_nil]
  have hall : ((c.data.reverse.takeWhile Char.isDigit).reverse).all
      Char.isDigit = true := by
    rw [List.all_eq_true]
    intro x hx
    exact List.mem_takeWhile_imp (List.mem_reverse.mp hx)
  unfold digitSuffix?
  have hpre : (stripDigits c).data.isPrefixOf c.data = true := by
    rw [List.isPrefixOf_iff_prefix]
    exact ⟨_, hpart.symm⟩
  rw [if_pos hpre]
  have hdrop : c.data.drop (stripDigits c).data.length
      = (c.data.reverse.takeWhile Char.isDigit).reverse := by
    conv_lhs => rw [hpart]
    exact List.drop_left _ _
  have hemp : ((c.data.reverse.takeWhile Char.isDigit).reverse).isEmpty
      = false := by
    cases hcase : (c.data.reverse.takeWhile Char.isDigit).reverse with
    | nil => exact absurd hcase hdne
    | cons y ys => rfl
  rw [hdrop, hemp, hall]
  simp

theorem dedup_foldl_absorb {α : Type} [DecidableEq α] :
    ∀ (l acc : List α), (∀ x ∈ l, x ∈ acc) →
      l.foldl (fun acc x => if x ∈ acc then acc else acc ++ [x]) acc = acc := by
  intro l
  induction l with
  | nil => intro acc _; rfl
  | cons y ys ih =>
    intro acc hall
    simp only [List.foldl_cons]
    rw [if_pos (hall y (List.mem_cons_self _ _))]
    exact ih acc (fun x hx => hall x (List.mem_cons_of_mem _ hx))

theorem dedup_foldl_nodup {α : Type} [DecidableEq α] :
    ∀ (C acc : List α), C.Nodup → (∀ x ∈ C, x ∉ acc) →
      C.foldl (fun acc x => if x ∈ acc then acc else acc ++ [x]) acc
        = acc ++ C := by
  intro C
  induction C with
  | nil => intro acc _ _; simp
  | cons y ys ih =>
    intro acc hnd hdisj
    simp only [List.foldl_cons]
    rw [if_neg (hdisj y (List.mem_cons_self _ _))]
    rw [ih (acc ++ [y]) (List.nodup_cons.mp hnd).2 (fun x hx => by
      intro hmem
      rcases List.mem_append.mp hmem with h1 | h2
      · exact hdisj x (List.mem_cons_of_mem _ hx) h1
      · rw [List.mem_singleton] at h2
        subst h2
        exact (List.nodup_cons.mp hnd).1 hx)]
    simp

theorem dedupKeep_eq_self {α : Type} [DecidableEq α] {C : List α}
    (h : C.Nodup) : dedupKeep C = C := by
  unfold dedupKeep
  rw [dedup_foldl_nodup C [] h (by simp)]
  simp

theorem dedupKeep_flatMap_const {α β : Type} [DecidableEq β]
    {g : α → List β} {C : List β} (hC : C.Nodup) :
    ∀ {fs : List α}, fs ≠ [] → (∀ F ∈ fs, g F = C) →
      dedupKeep (fs.flatMap g) = C := by
  intro fs
  cases fs with
  | nil => intro h; cases h rfl
  | cons F rest =>
    intro _ hall
    rw [List.flatMap_cons]
    unfold dedupKeep
    rw [List.foldl_append]
    have h1 : (g F).foldl
        (fun acc x => if x ∈ acc then acc else acc ++ [x]) [] = C := by
      rw [hall F (List.mem_cons_self _ _)]
      rw [dedup_foldl_nodup C [] hC (by simp)]
      simp
    rw [h1]
    apply dedup_foldl_absorb
    intro x hx
    obtain ⟨G, hG, hxG⟩ := List.mem_flatMap.mp hx
    rw [hall G (List.mem_cons_of_mem _ hG)] at hxG
    exact hxG

theorem mapME_ok_mem {α β : Type} {f : α → Except Err β} :
    ∀ {l : List α} {ys : List β}, mapME f l = .ok ys →
      ∀ y ∈ ys, ∃ x ∈ l, f x = .ok y := by
  intro l
  induction l with
  | nil =>
    intro ys h y hy
    cases h
    simp at hy
  | cons a rest ih =>
    intro ys h y hy
    simp only [mapME] at h
    cases hfa : f a with
    | error e => rw [hfa] at h; cases h
    | ok z =>
      rw [hfa] at h
      cases hrest : mapME f rest with
      | error e => rw [hrest] at h; cases h
      | ok ys' =>
        rw [hrest] at h
        cases h
        rcases List.mem_cons.mp hy with rfl | hy'
        · exact ⟨a, List.mem_cons_self _ _, hfa⟩
        · obtain ⟨x, hx, hfx⟩ := ih hrest y hy'
          exact ⟨x, List.mem_cons_of_mem _ hx, hfx⟩

theorem mapME_ok_length {α β : Type} {f : α → Except Err β} :
    ∀ {l : List α} {ys : List β}, mapME f l = .ok ys →
      ys.length = l.length := by
  intro l
  induction l with
  | nil => intro ys h; cases h; rfl
  | cons a rest ih =>
    intro ys h
    simp only [mapME] at h
    cases hfa : f a with
    | error e => rw [hfa] at h; cases h
    | ok z =>
      rw [hfa] at h
      cases hrest : mapME f rest with
      | error e => rw [hrest] at h; cases h
      | ok ys' =>
        rw [hrest] at h
        cases h
        simp [ih hrest]

theorem normalize_length (w : List ℚ) : (normalize w).length = w.length :=
  List.length_map _ _

theorem strideRed_fst (r : Nat) (rec : Record) :
    (strideRed r rec).map Prod.fst = rec.map Prod.fst := by
  simp [strideRed, List.map_map, Function.comp]

/-- The stride-mode per-record frame: column names, index, and uniform
column lengths. -/
theorem strideFrame_ok_shape {r : Nat} {wn grouper key : String}
    {rec : Record} {F : Frame} (h : strideFrame r wn grouper key rec = .ok F) :
    F.colNames = rec.map Prod.fst ++ [grouper] ∧
    F.index = rangeIndex (strideN r rec) ∧
    (∀ p ∈ F.cols, p.2.length = strideN r rec) := by
  obtain ⟨hr, hs, w, hlw, hFeq⟩ := strideFrame_ok_elim h
  subst hFeq
  refine ⟨?_, rfl, ?_⟩
  · show ((strideRed r rec).map _ ++ _).map Prod.fst = _
    rw [List.map_append]
    congr 1
    · rw [List.map_map]
      have : (Prod.fst ∘ fun p : String × List ℚ =>
          (p.1, (if p.1 = wn then normalize w else p.2).map Cell.num))
          = Prod.fst := rfl
      rw [this]
      exact strideRed_fst r rec
  · intro p hp
    rcases List.mem_append.mp hp with hp1 | hp2
    · obtain ⟨q, hq, rfl⟩ := List.mem_map.mp hp1
      show ((if q.1 = wn then normalize w else q.2).map Cell.num).length = _
      by_cases hqw : q.1 = wn
      · rw [if_pos hqw, List.length_map, normalize_length]
        have := sameLens_lengths hs (lookup_mem hlw)
        simpa [strideN] using this
      · rw [if_neg hqw, List.length_map]
        have := sameLens_lengths hs hq
        simpa [strideN] using this
    · rw [List.mem_singleton] at hp2
      subst hp2
      simp

/-- The stride-mode per-record frame's grouper column. -/
theorem strideFrame_ok_grouper {r : Nat} {wn grouper key : String}
    {rec : Record} {F : Frame} (h : strideFrame r wn grouper key rec = .ok F)
    (hg : grouper ∉ rec.map Prod.fst) :
    F.cols.lookup grouper
      = some (List.replicate (strideN r rec) (Cell.str key)) := by
  obtain ⟨hr, hs, w, hlw, hFeq⟩ := strideFrame_ok_elim h
  subst hFeq
  show ((strideRed r rec).map _ ++ _).lookup grouper = _
  rw [lookup_append_right _ _ grouper (by
    apply lookup_eq_none_of_not_mem
    intro hmem
    apply hg
    rw [List.map_map] at hmem
    have : (Prod.fst ∘ fun p : String × List ℚ =>
        (p.1, (if p.1 = wn then normalize w else p.2).map Cell.num))
        = Prod.fst := rfl
    rw [this] at hmem
    rwa [strideRed_fst r rec] at hmem)]
  simp [List.lookup]

theorem aggCols_ok_keys_eq {agg : Option (List ℚ → ℚ)} {weight : Bool}
    {wn : String} {rec : Record} :
    ∀ {l : List (String × List ℚ)} {cs : List (String × List Cell)},
      aggCols agg weight wn rec l = .ok cs →
      cs.map Prod.fst = obsNames wn (l.map Prod.fst) := by
  intro l
  induction l with
  | nil => intro cs h; cases h; rfl
  | cons p rest ih =>
    intro cs h
    obtain ⟨k₀, v₀⟩ := p
    simp only [aggCols] at h
    by_cases hskip : k₀ = "time" ∨ k₀ = wn
    · rw [if_pos hskip] at h
      have hcond : (decide ¬(k₀ = "time" ∨ k₀ = wn)) = false :=
        decide_eq_false (not_not_intro hskip)
      have := ih h
      simp only [obsNames] at this ⊢
      simp only [List.map_cons, List.filter_cons, hcond,
        Bool.false_eq_true, if_false]
      exact this
    · rw [if_neg hskip] at h
      cases harg : aggArg weight wn rec v₀ with
      | error e => rw [harg] at h; cases h
      | ok xv =>
        rw [harg] at h
        cases agg with
        | none => cases h
        | some f =>
          cases hrest : aggCols (some f) weight wn rec rest with
          | error e => rw [hrest] at h; cases h
          | ok cs' =>
            rw [hrest] at h
            cases h
            have hcond : (decide ¬(k₀ = "time" ∨ k₀ = wn)) = true :=
              decide_eq_true hskip
            have := ih hrest
            simp only [obsNames] at this ⊢
            simp only [List.map_cons, List.filter_cons, hcond, if_true]
            rw [this]

theorem aggCols_ok_lengths {agg : Option (List ℚ → ℚ)} {weight : Bool}
    {wn : String} {rec : Record} :
    ∀ {l : List (String × List ℚ)} {cs : List (String × List Cell)},
      aggCols agg weight wn rec l = .ok cs →
      ∀ p ∈ cs, p.2.length = 1 := by
  intro l
  induction l with
  | nil => intro cs h p hp; cases h; simp at hp
  | cons q rest ih =>
    intro cs h p hp
    obtain ⟨k₀, v₀⟩ := q
    simp only [aggCols] at h
    by_cases hskip : k₀ = "time" ∨ k₀ = wn
    · rw [if_pos hskip] at h
      exact ih h p hp
    · rw [if_neg hskip] at h
      cases harg : aggArg weight wn rec v₀ with
      | error e => rw [harg] at h; cases h
      | ok xv =>
        rw [harg] at h
        cases agg with
        | none => cases h
        | some f =>
          cases hrest : aggCols (some f) weight wn rec rest with
          | error e => rw [hrest] at h; cases h
          | ok cs' =>
            rw [hrest] at h
            cases h
            rcases List.mem_cons.mp hp with rfl | hp'
            · rfl
            · exact ih hrest p hp'

/-- The aggregate-mode per-record frame: column names, index, and
column lengths. -/
theorem aggFrame_ok_shape {agg : Option (List ℚ → ℚ)} {weight : Bool}
    {wn grouper key : String} {rec : Record} {F : Frame}
    (h : aggFrame agg weight wn grouper key rec = .ok F) :
    F.colNames = obsNames wn (rec.map Prod.fst) ++ [grouper] ∧
    F.index = [[Cell.str key]] ∧
    (∀ p ∈ F.cols, p.2.length = 1) := by
  obtain ⟨cs, hcs, hFeq⟩ := aggFrame_ok_elim h
  subst hFeq
  refine ⟨?_, rfl, ?_⟩
  · show (cs ++ _).map Prod.fst = _
    rw [List.map_append, aggCols_ok_keys_eq hcs]
    rfl
  · intro p hp
    rcases List.mem_append.mp hp with hp1 | hp2
    · exact aggCols_ok_lengths hcs p hp1
    · rw [List.mem_singleton] at hp2
      subst hp2
      rfl

/-- The aggregate-mode per-record frame's grouper column. -/
theorem aggFrame_ok_grouper {agg : Option (List ℚ → ℚ)} {weight : Bool}
    {wn grouper key : String} {rec : Record} {F : Frame}
    (h : aggFrame agg weight wn grouper key rec = .ok F)
    (hg : grouper ∉ rec.map Prod.fst) :
    F.cols.lookup grouper = some [Cell.str key] := by
  obtain ⟨cs, hcs, hFeq⟩ := aggFrame_ok_elim h
  subst hFeq
  show (cs ++ _).lookup grouper = _
  rw [lookup_append_right _ _ grouper (by
    apply lookup_eq_none_of_not_mem
    intro hmem
    rw [aggCols_ok_keys_eq hcs] at hmem
    exact hg (List.mem_of_mem_filter hmem))]
  simp [List.lookup]

/-- The column names of a concatenated frame are the first-appearance
union of the frames' column names. -/
theorem concat_colNames (fs : List Frame) :
    (concatFrames fs).colNames = dedupKeep (fs.flatMap Frame.colNames) := by
  unfold concatFrames Frame.colNames
  rw [List.map_map]
  have hfn : (Prod.fst ∘ fun c =>
      (c, fs.flatMap (fun f =>
        ((f.cols.lookup c).getD (List.replicate f.nrows Cell.na)))))
      = fun (c : String) => c := rfl
  rw [hfn]
  exact List.map_id' _

theorem concat_uniform_colNames {fs : List Frame} {C : List String}
    (hne : fs ≠ []) (hC : C.Nodup) (hall : ∀ F ∈ fs, F.colNames = C) :
    (concatFrames fs).colNames = C := by
  rw [concat_colNames]
  exact dedupKeep_flatMap_const hC hne hall

theorem concat_index (fs : List Frame) :
    (concatFrames fs).index = fs.flatMap Frame.index := rfl

theorem concat_lookup {fs : List Frame} {c : String}
    (hmem : c ∈ (concatFrames fs).colNames) :
    (concatFrames fs).cols.lookup c
      = some (fs.flatMap (fun F =>
          (F.cols.lookup c).getD (List.replicate F.nrows Cell.na))) := by
  rw [concat_colNames] at hmem
  unfold concatFrames
  rw [lookup_map_self, if_pos hmem]

theorem concat_col_length {c : String} :
    ∀ {fs : List Frame},
      (∀ F ∈ fs, ∀ p ∈ F.cols, p.2.length = F.nrows) →
      (fs.flatMap (fun F =>
          (F.cols.lookup c).getD (List.replicate F.nrows Cell.na))).length
        = (concatFrames fs).nrows := by
  intro fs
  induction fs with
  | nil => intro _; rfl
  | cons F rest ih =>
    intro hall
    rw [List.flatMap_cons, List.length_append]
    have hidx : (concatFrames (F :: rest)).nrows
        = F.index.length + (concatFrames rest).nrows := by
      show ((F :: rest).flatMap Frame.index).length = _
      rw [List.flatMap_cons, List.length_append]
      rfl
    rw [hidx]
    congr 1
    · cases hl : F.cols.lookup c with
      | none => simp [Frame.nrows]
      | some vals =>
        simp only [Option.getD_some]
        exact hall F (List.mem_cons_self _ _) (c, vals) (lookup_mem hl)
    · exact ih (fun G hG => hall G (List.mem_cons_of_mem _ hG))

theorem wideToLong_ok_eq {f : Frame} {stubs : List String} {i : String}
    {iVals : List Cell} (hne : stubs.isEmpty = false)
    (hi : f.cols.lookup i = some iVals) :
    wideToLong f stubs i = .ok (wtlFrame f stubs i iVals) := by
  unfold wideToLong
  rw [if_neg (by simp [hne]), hi]

theorem wtlFrame_colNames (f : Frame) (stubs : List String) (i : String)
    (iVals : List Cell) :
    (wtlFrame f stubs i iVals).colNames = wtlIdVars f stubs i ++ stubs := by
  unfold wtlFrame Frame.colNames
  rw [List.map_append, List.map_map, List.map_map]
  congr 1
  · have : (Prod.fst ∘ fun c =>
        (c, (wtlPairs f stubs).map (fun p =>
          (((f.cols.lookup c).getD []).get? p.1).getD Cell.na)))
        = fun (c : String) => c := rfl
    rw [this]
    exact List.map_id' _
  · have : (Prod.fst ∘ fun st =>
        (st, (wtlPairs f stubs).map (fun p =>
          (((stubMatches f st).lookup p.2).bind
            (fun cells => cells.get? p.1)).getD Cell.na)))
        = fun (st : String) => st := rfl
    rw [this]
    exact List.map_id' _

theorem wtlFrame_index_mem {f : Frame} {stubs : List String} {i : String}
    {iVals : List Cell} :
    ∀ tu ∈ (wtlFrame f stubs i iVals).index,
      ∃ (rr ss : Nat),
        tu = [(iVals.get? rr).getD Cell.na, Cell.num (ss : ℚ)]
        ∧ rr < f.nrows := by
  intro tu htu
  obtain ⟨p, hp, rfl⟩ := List.mem_map.mp htu
  obtain ⟨rr, hrr, hp'⟩ := List.mem_flatMap.mp hp
  obtain ⟨ss, _, rfl⟩ := List.mem_map.mp hp'
  exact ⟨rr, ss, rfl, List.mem_range.mp hrr⟩

theorem wtlFrame_lookup_idVar {f : Frame} {stubs : List String}
    {i : String} {iVals : List Cell} {c : String}
    (hc : c ∈ wtlIdVars f stubs i) :
    (wtlFrame f stubs i iVals).cols.lookup c
      = some ((wtlPairs f stubs).map (fun p =>
          (((f.cols.lookup c).getD []).get? p.1).getD Cell.na)) := by
  unfold wtlFrame
  rw [lookup_append_left _ _ c (by
    rw [lookup_map_self (fun c => (wtlPairs f stubs).map (fun p =>
      (((f.cols.lookup c).getD []).get? p.1).getD Cell.na))
      (wtlIdVars f stubs i) c, if_pos hc]
    rfl)]
  rw [lookup_map_self, if_pos hc]

theorem setIndexAppend_ok {f : Frame} {c : String} {vals : List Cell}
    (h : f.cols.lookup c = some vals) :
    setIndexAppend f c = .ok
      { index := (f.index.zip vals).map (fun p => p.1 ++ [p.2]),
        cols := f.cols.filter (fun p => p.1 != c) } := by
  unfold setIndexAppend
  rw [h]

theorem filter_colNames (f : Frame) (c : String) :
    (f.cols.filter (fun p => p.1 != c)).map Prod.fst
      = f.colNames.filter (fun x => x != c) := by
  unfold Frame.colNames
  rw [List.filter_map]
  rfl

theorem delCol_cols (f : Frame) (c : String) :
    (delCol f c).cols = f.cols.filter (fun p => p.1 != c) := rfl

theorem delCol_index (f : Frame) (c : String) :
    (delCol f c).index = f.index := rfl

theorem toTable_colNames_perm (f : Frame) :
    (toTable f).colNames.Perm f.colNames := by
  show ((f.cols.insertionSort ColLe).map Prod.fst).Perm (f.cols.map Prod.fst)
  exact (List.perm_insertionSort ColLe f.cols).map Prod.fst

theorem toTable_rows_mem (f : Frame) :
    ∀ row ∈ (toTable f).rows, row.1 ∈ f.index := by
  intro row hrow
  have hrow' : row ∈ (List.range f.index.length).map (fun rIdx =>
      ((f.index.get? rIdx).getD [],
       (f.cols.insertionSort ColLe).map
         (fun p => (p.2.get? rIdx).getD Cell.na))) :=
    (List.perm_insertionSort RowLe _).subset hrow
  obtain ⟨rIdx, hr, rfl⟩ := List.mem_map.mp hrow'
  have hlt : rIdx < f.index.length := List.mem_range.mp hr
  cases hg : f.index.get? rIdx with
  | none =>
    have := List.get?_eq_none.mp hg
    omega
  | some tu =>
    simp only [Option.getD_some]
    exact List.get?_mem hg

/-- The run of a successful `hdf_to_dataframe` call, dissected into its
stages. -/
theorem pipeline_ok_elim {store : Store} {reduce : Option Nat}
    {agg : Option (List ℚ → ℚ)} {weight reshape : Bool}
    {grouper wn : String} {t : Table}
    (hok : hdfToDataframe store reduce agg weight reshape grouper wn
      = .ok t) :
    ∃ frames df df2,
      mapME (fun kr =>
          match reduce with
          | some r => strideFrame r wn grouper kr.1 kr.2
          | none => aggFrame agg weight wn grouper kr.1 kr.2)
        (sortByKey store) = .ok frames ∧
      (if reshape then reshapeStep reduce grouper wn (concatFrames frames)
        else .ok (concatFrames frames)) = .ok df ∧
      dropStep reduce grouper df = .ok df2 ∧
      t = toTable df2 := by
  unfold hdfToDataframe at hok
  split at hok
  · cases hok
  · split at hok
    · cases hok
    · split at hok
      · cases hok
      · split at hok
        · cases hok
        · injection hok with h'
          exact ⟨_, _, _, by assumption, by assumption, by assumption,
            h'.symm⟩

theorem rangeIndex_length (n : Nat) : (rangeIndex n).length = n := by
  simp [rangeIndex]

theorem wideToLong_ok_elim {f : Frame} {stubs : List String} {i : String}
    {g : Frame} (h : wideToLong f stubs i = .ok g) :
    stubs.isEmpty = false ∧
    ∃ iVals, f.cols.lookup i = some iVals ∧ g = wtlFrame f stubs i iVals := by
  unfold wideToLong at h
  by_cases hne : stubs.isEmpty = true
  · rw [if_pos hne] at h; cases h
  · rw [if_neg hne] at h
    cases hl : f.cols.lookup i with
    | none => rw [hl] at h; cases h
    | some iVals =>
      rw [hl] at h
      injection h with h'
      exact ⟨by simpa using hne, iVals, rfl, h'.symm⟩

/-- A name with no trailing digit is never a melted value variable. -/
theorem not_mem_matchedNames {f : Frame} {stubs : List String}
    {c : String} (h : noTrailingDigit c) : c ∉ matchedNames f stubs := by
  intro hm
  unfold matchedNames at hm
  have hcond := List.of_mem_filter hm
  obtain ⟨st, _, hsome⟩ := List.any_eq_true.mp hcond
  cases hd : digitSuffix? st c with
  | none => rw [hd] at hsome; cases hsome
  | some k => exact (stripDigits_ne_of_digitSuffix hd) h

/-- An indexed observable column whose stub is listed is melted. -/
theorem mem_matchedNames_of_obs {f : Frame} {stubs : List String}
    {c : String} (hcol : c ∈ f.colNames) (hidx : indexedName c)
    (hstub : stripDigits c ∈ stubs) : c ∈ matchedNames f stubs := by
  unfold matchedNames
  apply List.mem_filter.mpr
  refine ⟨hcol, ?_⟩
  apply List.any_eq_true.mpr
  exact ⟨stripDigits c, hstub, digitSuffix?_of_indexedName hidx⟩

/-- Every cell of the concatenated grouper column is the string cell of
some listed key, when every frame's grouper column is its key
replicated over its rows. -/
theorem concat_grouper_cells {frames : List Frame} {grouper : String}
    {keys : List String}
    (hall : ∀ F ∈ frames, ∃ key, key ∈ keys ∧
      F.cols.lookup grouper
        = some (List.replicate F.nrows (Cell.str key))) :
    ∀ cell ∈ (frames.flatMap (fun F =>
        (F.cols.lookup grouper).getD (List.replicate F.nrows Cell.na))),
      ∃ key ∈ keys, cell = Cell.str key := by
  intro cell hcell
  obtain ⟨F, hF, hmem⟩ := List.mem_flatMap.mp hcell
  obtain ⟨key, hkey, hlg⟩ := hall F hF
  rw [hlg] at hmem
  simp only [Option.getD_some] at hmem
  exact ⟨key, hkey, (List.eq_of_mem_replicate hmem)⟩

/-- Reading a position below the column's length yields a cell of the
column. -/
theorem cell_getD_mem {col : List Cell} {N n : Nat}
    (hlen : col.length = N) (hn : n < N) :
    (col.get? n).getD Cell.na ∈ col := by
  cases hg : col.get? n with
  | none =>
    have := List.get?_eq_none.mp hg
    omega
  | some v =>
    simp only [Option.getD_some]
    exact List.get?_mem hg

theorem map_fst_filter_ne {β : Type} (l : List (String × β)) (c : String) :
    (l.filter (fun p => p.1 != c)).map Prod.fst
      = (l.map Prod.fst).filter (fun x => x != c) := by
  rw [List.filter_map]
  rfl

/-- Stride mode errors on every record lacking the weight field (the
zero-stride and ragged-column `ValueError`s are also errors). -/
theorem strideFrame_no_weight_error {r : Nat} {wn grouper key : String}
    {rec : Record} (h : wn ∉ rec.map Prod.fst) :
    ∀ (F : Frame), strideFrame r wn grouper key rec ≠ .ok F := by
  intro F hF
  unfold strideFrame at hF
  by_cases hr : r = 0
  · rw [if_pos hr] at hF; cases hF
  · rw [if_neg hr] at hF
    by_cases hs : (!sameLens (strideRed r rec)) = true
    · rw [if_pos hs] at hF; cases hF
    · rw [if_neg hs] at hF
      have hnone : (strideRed r rec).lookup wn = none := by
        apply lookup_eq_none_of_not_mem
        intro hmem
        apply h
        simpa [strideRed, List.map_map, Function.comp] using hmem
      rw [hnone] at hF
      cases hF

/-- With `weight=True`, the aggregate-mode field loop errors as soon as
it reaches a field other than `time` and the weight field, when the
record lacks the weight field. -/
theorem aggCols_no_weight_error {agg : Option (List ℚ → ℚ)} {wn : String}
    {rec : Record} (hnw : wn ∉ rec.map Prod.fst) :
    ∀ {l : List (String × List ℚ)} {k : String} {v : List ℚ},
      (k, v) ∈ l → k ≠ "time" → k ≠ wn →
      ∀ cs, aggCols agg true wn rec l ≠ .ok cs := by
  intro l
  induction l with
  | nil => intro k v hkv; simp at hkv
  | cons p rest ih =>
    intro k v hkv hkt hkw cs h
    obtain ⟨k₀, v₀⟩ := p
    simp only [aggCols] at h
    by_cases hskip : k₀ = "time" ∨ k₀ = wn
    · rw [if_pos hskip] at h
      rcases List.mem_cons.mp hkv with heq | hmem
      · have hk : k = k₀ := congrArg Prod.fst heq
        rcases hskip with rfl | rfl
        · exact hkt hk
        · exact hkw hk
      · exact ih hmem hkt hkw cs h
    · rw [if_neg hskip] at h
      have harg : aggArg true wn rec v₀ = .error (.keyError wn) := by
        unfold aggArg
        rw [if_pos rfl, lookup_eq_none_of_not_mem rec wn hnw]
        rfl
      rw [harg] at h
      cases h

/-- Aggregate mode with `weight=True` errors on a record that lacks the
weight field but holds at least one observable field. -/
theorem aggFrame_no_weight_error {agg : Option (List ℚ → ℚ)}
    {wn grouper key k : String} {rec : Record} {v : List ℚ}
    (hnw : wn ∉ rec.map Prod.fst) (hkv : (k, v) ∈ rec)
    (hkt : k ≠ "time") (hkw : k ≠ wn) :
    ∀ (F : Frame), aggFrame agg true wn grouper key rec ≠ .ok F := by
  intro F hF
  unfold aggFrame at hF
  cases hcs : aggCols agg true wn rec rec with
  | error e => rw [hcs] at hF; cases hF
  | ok cs => exact aggCols_no_weight_error hnw hkv hkt hkw cs hcs

end Orders

/-- C3: for every store and every combination of the other parameters,
calling `hdf_to_dataframe` with both `reduce` and `aggregator` set fails
with the configuration-conflict error; the result does not depend on the
store, so the failure happens before the store is opened or read. -/
theorem C3_config_conflict (store : Store) (r : Nat) (f : List ℚ → ℚ)
    (weight reshape : Bool) (grouper wn : String) :
    hdfToDataframe store (some r) (some f) weight reshape grouper wn
      = .error .configConflict := rfl

/-- C4 (code bug witness): calling `hdf_to_dataframe` in aggregate mode
with `aggregator=None` does not fail fast with a descriptive
missing-aggregator error; it reaches the point of use and faults there
with the generic null-invocation `TypeError` of calling `None`. -/
theorem C4_null_invocation_at_point_of_use :
    hdfToDataframe
        [("s1", [("obs", [1, 2, 3]), ("time", [0, 1, 2]),
                 ("ww", [1/5, 3/10, 1/2])])]
        none none true false "ff" "ww"
      = .error .nullInvocation := by rfl

/-- C5 (counterexample): in stride mode with `reshape=True`, the columns
of the returned table are not exactly the observable base names: the
weight bookkeeping column `ww` survives as a column next to the
observable base `phi`. -/
theorem C5_counterexample_weight_column_retained :
    (hdfToDataframe
        [("s1", [("phi0", [1, 2]), ("time", [0, 1]), ("ww", [1, 3])])]
        (some 1) none true true "ff" "ww").map Table.colNames
      = .ok ["phi", "ww"] := by rfl

/-- C8 (counterexample): a store whose only simulation record lacks the
configured weight field `ww` while `weight=True` does not abort the
call in aggregate mode: because the record has no field other than
`time`, the weight column is never accessed and the call returns a
table. -/
theorem C8_counterexample_missing_weight_tolerated :
    ("ww" ∉ ([("time", [0, 1])] : Record).map Prod.fst) ∧
    hdfToDataframe [("s1", [("time", [0, 1])])] none
        (some (fun l => l.sum)) true false "ff" "ww"
      = .ok { colNames := [], rows := [([Cell.str "s1"], [])] } :=
  ⟨by decide, by rfl⟩

/-- C10: for every file system, every `files` argument and every other
parameter, calling `plumed_to_h5` with the default `func=None` faults
with the `TypeError` of subscripting `None` (`func[0]`), during input
validation; the result does not depend on the file system, so no file is
read and no chunk is written. -/
theorem C10_func_none_always_faults (fsm : FileSystem) (files : PyVal)
    (hdf_file : String) (chunksize : Nat) (kwargs : PyVal) :
    plumedToH5 fsm files hdf_file .pnone chunksize kwargs
      = .error .notSubscriptable := rfl

/-- C1: in stride mode (any positive stride that lets the call succeed),
for every simulation record of the store, the reduced frame's weight
column is the renormalized retained weight sub-sequence
(`everyNth`-strided, then divided by its sum), and its sum is exactly 1,
provided the retained weights have a nonzero sum. -/
theorem C1_stride_weight_renormalization (store : Store) (r : Nat)
    (weight reshape : Bool) (grouper wn key : String) (rec : Record)
    (wv : List ℚ)
    (hok : (hdfToDataframe store (some r) none weight reshape grouper
              wn).isOk = true)
    (hmem : (key, rec) ∈ store)
    (hw : rec.lookup wn = some wv)
    (hsum : (everyNth r wv).sum ≠ 0) :
    ∃ F, strideFrame r wn grouper key rec = .ok F ∧
      F.cols.lookup wn = some ((normalize (everyNth r wv)).map Cell.num) ∧
      (normalize (everyNth r wv)).sum = 1 := by
  obtain ⟨F, hF⟩ := frames_ok_of_pipeline_isOk hok hmem
  have hF' : strideFrame r wn grouper key rec = .ok F := hF
  obtain ⟨hr, hs, w, hlw, hFeq⟩ := strideFrame_ok_elim hF'
  have hred : (strideRed r rec).lookup wn
      = (rec.lookup wn).map (fun v => everyNth r v) := by
    unfold strideRed
    exact lookup_map_val (fun _ v => everyNth r v) rec wn
  rw [hw, hlw] at hred
  have hweq : w = everyNth r wv := Option.some.inj hred
  subst hweq
  refine ⟨F, hF', ?_, sum_normalize hsum⟩
  rw [hFeq]
  show (((strideRed r rec).map (fun p =>
      (p.1, (if p.1 = wn then normalize (everyNth r wv) else p.2).map
        Cell.num))) ++ _).lookup wn = _
  rw [lookup_append_left _ _ wn (by
    rw [lookup_map_val (fun a v =>
      (if a = wn then normalize (everyNth r wv) else v).map Cell.num)
      (strideRed r rec) wn, hlw]
    rfl)]
  rw [lookup_map_val (fun a v =>
    (if a = wn then normalize (everyNth r wv) else v).map Cell.num)
    (strideRed r rec) wn, hlw]
  simp

/-- Witness for C1 at a concrete store: stride 2 over weights `[1, 3]`
retains `[1]`, which renormalizes to `[1]` with sum 1. -/
theorem C1_witness :
    ∃ F, strideFrame 2 "ww" "ff" "s1"
        [("phi0", [1, 2]), ("time", [0, 1]), ("ww", [1, 3])] = .ok F ∧
      F.cols.lookup "ww" = some ((normalize (everyNth 2 [1, 3])).map Cell.num) ∧
      (normalize (everyNth 2 [1, 3])).sum = 1 :=
  C1_stride_weight_renormalization
    [("s1", [("phi0", [1, 2]), ("time", [0, 1]), ("ww", [1, 3])])]
    2 true false "ff" "ww" "s1" _ [1, 3]
    (by rfl) (by simp) (by rfl) (by norm_num [everyNth, everyNthAux])

/-- C7: in stride mode, for every simulation record and every field of
the record, a successful call retains exactly the elements at positions
`0, r, 2r, ...` (with the expected count), every non-weight field's
column is exactly that sub-sequence, the frame has one row per retained
sample and the grouper column tags every retained row with the
simulation key. -/
theorem C7_stride_retention (store : Store) (r : Nat)
    (weight reshape : Bool) (grouper wn key k : String) (rec : Record)
    (v : List ℚ)
    (hok : (hdfToDataframe store (some r) none weight reshape grouper
              wn).isOk = true)
    (hmem : (key, rec) ∈ store)
    (hk : rec.lookup k = some v)
    (hg : grouper ∉ rec.map Prod.fst) :
    ∃ F, strideFrame r wn grouper key rec = .ok F ∧
      0 < r ∧
      (∀ i, (everyNth r v).get? i = v.get? (i * r)) ∧
      (everyNth r v).length = (v.length + r - 1) / r ∧
      (k ≠ wn → F.cols.lookup k = some ((everyNth r v).map Cell.num)) ∧
      F.nrows = (everyNth r v).length ∧
      F.cols.lookup grouper
        = some (List.replicate F.nrows (Cell.str key)) := by
  obtain ⟨F, hF⟩ := frames_ok_of_pipeline_isOk hok hmem
  have hF' : strideFrame r wn grouper key rec = .ok F := hF
  obtain ⟨hr, hs, w, hlw, hFeq⟩ := strideFrame_ok_elim hF'
  have hred : (strideRed r rec).lookup k
      = (rec.lookup k).map (fun u => everyNth r u) := by
    unfold strideRed
    exact lookup_map_val (fun _ u => everyNth r u) rec k
  rw [hk] at hred
  have hmemred : (k, everyNth r v) ∈ strideRed r rec := lookup_mem hred
  have hlen : (everyNth r v).length = strideN r rec := by
    have := sameLens_lengths hs hmemred
    exact this
  have hnr : F.nrows = (everyNth r v).length := by
    rw [hFeq]
    show (rangeIndex (strideN r rec)).length = _
    rw [rangeIndex, List.length_map, List.length_range, hlen]
  refine ⟨F, hF', hr, everyNth_get? r hr v, everyNth_length r hr v,
    ?_, hnr, ?_⟩
  · intro hkw
    rw [hFeq]
    show (((strideRed r rec).map (fun p =>
        (p.1, (if p.1 = wn then normalize w else p.2).map Cell.num)))
      ++ _).lookup k = _
    rw [lookup_append_left _ _ k (by
      rw [lookup_map_val (fun a u =>
        (if a = wn then normalize w else u).map Cell.num)
        (strideRed r rec) k, hred]
      rfl)]
    rw [lookup_map_val (fun a u =>
      (if a = wn then normalize w else u).map Cell.num)
      (strideRed r rec) k, hred]
    simp [hkw]
  · rw [hnr, hlen, hFeq]
    show (((strideRed r rec).map (fun p =>
        (p.1, (if p.1 = wn then normalize w else p.2).map Cell.num)))
      ++ [(grouper, List.replicate (strideN r rec) (Cell.str key))]).lookup
        grouper = _
    rw [lookup_append_right _ _ grouper (by
      apply lookup_eq_none_of_not_mem
      intro hmem'
      apply hg
      simpa [strideRed, List.map_map, Function.comp] using hmem')]
    simp [List.lookup]

/-- Witness for C7 at a concrete store: stride 2 over `phi0 = [1, 2]`
retains `[1]`. -/
theorem C7_witness :
    ∃ F, strideFrame 2 "ww" "ff" "s1"
        [("phi0", [1, 2]), ("time", [0, 1]), ("ww", [1, 3])] = .ok F ∧
      0 < 2 ∧
      (∀ i, (everyNth 2 [1, 2]).get? i = [1, 2].get? (i * 2)) ∧
      (everyNth 2 [1, 2]).length = (([1, 2] : List ℚ).length + 2 - 1) / 2 ∧
      ("phi0" ≠ "ww" →
        F.cols.lookup "phi0" = some ((everyNth 2 [1, 2]).map Cell.num)) ∧
      F.nrows = (everyNth 2 [1, 2]).length ∧
      F.cols.lookup "ff" = some (List.replicate F.nrows (Cell.str "s1")) :=
  C7_stride_retention
    [("s1", [("phi0", [1, 2]), ("time", [0, 1]), ("ww", [1, 3])])]
    2 true false "ff" "ww" "s1" "phi0" _ [1, 2]
    (by rfl) (by simp) (by rfl) (by simp)

/-- C2: in aggregate mode, for every simulation record and every field
other than `time` and the weight field, a successful call computes the
scalar `aggregator(field * weights)` when `weight` is true and
`aggregator(field)` when `weight` is false, and the per-record frame is
a single row indexed by the simulation key with the key also stored in
the grouper column. -/
theorem C2_aggregate_scalar (store : Store) (f : List ℚ → ℚ)
    (weight reshape : Bool) (grouper wn key k : String) (rec : Record)
    (v w : List ℚ)
    (hok : (hdfToDataframe store none (some f) weight reshape grouper
              wn).isOk = true)
    (hmem : (key, rec) ∈ store)
    (hk : rec.lookup k = some v) (hkt : k ≠ "time") (hkw : k ≠ wn)
    (hw : weight = true → rec.lookup wn = some w)
    (hg : grouper ∉ rec.map Prod.fst) :
    ∃ F, aggFrame (some f) weight wn grouper key rec = .ok F ∧
      F.index = [[Cell.str key]] ∧
      F.cols.lookup grouper = some [Cell.str key] ∧
      F.cols.lookup k = some [Cell.num
        (f (if weight then List.zipWith (· * ·) v w else v))] := by
  obtain ⟨F, hF⟩ := frames_ok_of_pipeline_isOk hok hmem
  have hF' : aggFrame (some f) weight wn grouper key rec = .ok F := hF
  obtain ⟨cs, hcs, hFeq⟩ := aggFrame_ok_elim hF'
  have hlk : cs.lookup k = some [Cell.num
      (f (if weight then List.zipWith (· * ·) v w else v))] :=
    aggCols_lookup hw hcs hk hkt hkw
  refine ⟨F, hF', by rw [hFeq], ?_, ?_⟩
  · rw [hFeq]
    show (cs ++ [(grouper, [Cell.str key])]).lookup grouper = _
    rw [lookup_append_right _ _ grouper (by
      apply lookup_eq_none_of_not_mem
      intro hmem'
      exact hg (aggCols_keys hcs grouper hmem'))]
    simp [List.lookup]
  · rw [hFeq]
    show (cs ++ [(grouper, [Cell.str key])]).lookup k = _
    rw [lookup_append_left _ _ k (by rw [hlk]; rfl)]
    exact hlk

/-- Witness for C2 at the spec's own example: `obs = [1,2,3]`,
`ww = [0.2, 0.3, 0.5]`, `aggregator = sum`, `weight = True` yields the
scalar 2.3. -/
theorem C2_witness :
    ∃ F, aggFrame (some List.sum) true "ww" "ff" "s1"
        [("obs", [1, 2, 3]), ("time", [0, 1, 2]),
         ("ww", [1/5, 3/10, 1/2])] = .ok F ∧
      F.index = [[Cell.str "s1"]] ∧
      F.cols.lookup "ff" = some [Cell.str "s1"] ∧
      F.cols.lookup "obs" = some [Cell.num (23/10)] := by
  have h := C2_aggregate_scalar
    [("s1", [("obs", [1, 2, 3]), ("time", [0, 1, 2]),
             ("ww", [1/5, 3/10, 1/2])])]
    List.sum true false "ff" "ww" "s1" "obs"
    [("obs", [1, 2, 3]), ("time", [0, 1, 2]), ("ww", [1/5, 3/10, 1/2])]
    [1, 2, 3] [1/5, 3/10, 1/2]
    (by rfl) (List.mem_singleton.mpr rfl) (by rfl) (by decide) (by decide)
    (fun _ => by rfl) (by decide)
  obtain ⟨F, h1, h2, h3, h4⟩ := h
  refine ⟨F, h1, h2, h3, ?_⟩
  rw [h4]
  norm_num

/-- C9: concatenating per-simulation frames where the first has a column
the second lacks yields a combined frame that has the column, whose
entries for the second frame's rows are the explicit missing marker
`Cell.na` (which differs from every number, in particular from 0), with
the rows simply stacked (no deduplication). -/
theorem C9_missing_columns_na (F1 F2 : Frame) (c : String)
    (vals : List Cell)
    (h1 : F1.cols.lookup c = some vals)
    (h2 : c ∉ F2.colNames) :
    c ∈ (concatFrames [F1, F2]).colNames ∧
    (concatFrames [F1, F2]).cols.lookup c
      = some (vals ++ List.replicate F2.nrows Cell.na) ∧
    (concatFrames [F1, F2]).index = F1.index ++ F2.index ∧
    ∀ q : ℚ, Cell.na ≠ Cell.num q := by
  have hc1 : c ∈ F1.colNames := by
    unfold Frame.colNames
    exact List.mem_map_of_mem Prod.fst (lookup_mem h1)
  have hnames : c ∈ dedupKeep ([F1, F2].flatMap Frame.colNames) := by
    rw [mem_dedupKeep]
    simp only [List.flatMap_cons, List.flatMap_nil, List.append_nil,
      List.mem_append]
    exact Or.inl hc1
  have h2' : F2.cols.lookup c = none := by
    apply lookup_eq_none_of_not_mem
    exact h2
  refine ⟨?_, ?_, ?_, fun q h => Cell.noConfusion h⟩
  · rw [concat_colNames]
    exact hnames
  · unfold concatFrames
    rw [lookup_map_self (fun c => [F1, F2].flatMap (fun f =>
        (f.cols.lookup c).getD (List.replicate f.nrows Cell.na)))
      (dedupKeep ([F1, F2].flatMap Frame.colNames)) c]
    rw [if_pos hnames]
    simp [h1, h2']
  · unfold concatFrames
    simp

/-- Witness for C9: a `chi0` column present in the first frame and
absent from the second. -/
theorem C9_witness :
    "chi0" ∈ (concatFrames
        [{ index := [[Cell.num 0]], cols := [("chi0", [Cell.num 1])] },
         { index := [[Cell.num 0]], cols := [("psi0", [Cell.num 2])] }]).colNames ∧
    (concatFrames
        [{ index := [[Cell.num 0]], cols := [("chi0", [Cell.num 1])] },
         { index := [[Cell.num 0]], cols := [("psi0", [Cell.num 2])] }]).cols.lookup "chi0"
      = some ([Cell.num 1] ++ List.replicate
          (Frame.nrows { index := [[Cell.num 0]],
                         cols := [("psi0", [Cell.num 2])] }) Cell.na) ∧
    (concatFrames
        [{ index := [[Cell.num 0]], cols := [("chi0", [Cell.num 1])] },
         { index := [[Cell.num 0]], cols := [("psi0", [Cell.num 2])] }]).index
      = [[Cell.num 0]] ++ [[Cell.num 0]] ∧
    ∀ q : ℚ, Cell.na ≠ Cell.num q :=
  C9_missing_columns_na
    { index := [[Cell.num 0]], cols := [("chi0", [Cell.num 1])] }
    { index := [[Cell.num 0]], cols := [("psi0", [Cell.num 2])] }
    "chi0" [Cell.num 1] (by rfl) (by decide)

/-- C8 (amended): if a simulation record lacks the configured weight
field while `weight=True`, the whole call aborts with an error — in
stride mode always, and in aggregate mode provided the record has at
least one field other than `time` and the weight field.  (A record that
lacks the weight field but holds no observable field passes silently in
aggregate mode, see the counterexample.) -/
theorem C8_amended_missing_weight_aborts :
    (∀ (store : Store) (r : Nat) (weight reshape : Bool)
       (grouper wn key : String) (rec : Record),
       (key, rec) ∈ store → wn ∉ rec.map Prod.fst →
       ∃ e, hdfToDataframe store (some r) none weight reshape grouper wn
         = .error e) ∧
    (∀ (store : Store) (agg : Option (List ℚ → ℚ)) (reshape : Bool)
       (grouper wn key k : String) (rec : Record) (v : List ℚ),
       (key, rec) ∈ store → wn ∉ rec.map Prod.fst →
       (k, v) ∈ rec → k ≠ "time" → k ≠ wn →
       ∃ e, hdfToDataframe store none agg true reshape grouper wn
         = .error e) := by
  constructor
  · intro store r weight reshape grouper wn key rec hmem hnw
    apply pipeline_error_of_record_error hmem
    intro F
    exact strideFrame_no_weight_error hnw F
  · intro store agg reshape grouper wn key k rec v hmem hnw hkv hkt hkw
    apply pipeline_error_of_record_error hmem
    intro F
    exact aggFrame_no_weight_error hnw hkv hkt hkw F

/-- Witness for the amended C8: a record without `ww` aborts the stride
call, and aborts the aggregate call because it holds `phi0`. -/
theorem C8_amended_witness :
    (∃ e, hdfToDataframe [("s1", [("time", [0, 1]), ("phi0", [1, 2])])]
        (some 1) none true false "ff" "ww" = .error e) ∧
    (∃ e, hdfToDataframe [("s1", [("time", [0, 1]), ("phi0", [1, 2])])]
        none (some List.sum) true false "ff" "ww" = .error e) :=
  ⟨C8_amended_missing_weight_aborts.1 _ 1 true false "ff" "ww" "s1" _
      (List.mem_singleton.mpr rfl) (by decide),
   C8_amended_missing_weight_aborts.2 _ (some List.sum) false "ff" "ww"
      "s1" "phi0" _ [1, 2] (List.mem_singleton.mpr rfl) (by decide)
      (by simp) (by decide) (by decide)⟩

/-- C6: `hdf_to_dataframe` is deterministic — two stores equal as
mappings (permutations of each other, with no duplicate simulation key)
produce identical tables for every configuration, because `h5py` yields
keys in name order; and on success the returned table's column labels
are sorted alphabetically and its rows are sorted lexicographically on
the whole index. -/
theorem C6_determinism_and_sorting :
    (∀ (store₁ store₂ : Store) (reduce : Option Nat)
       (agg : Option (List ℚ → ℚ)) (weight reshape : Bool)
       (grouper wn : String),
       store₁.Perm store₂ → (store₁.map Prod.fst).Nodup →
       hdfToDataframe store₁ reduce agg weight reshape grouper wn
         = hdfToDataframe store₂ reduce agg weight reshape grouper wn) ∧
    (∀ (store : Store) (reduce : Option Nat) (agg : Option (List ℚ → ℚ))
       (weight reshape : Bool) (grouper wn : String) (t : Table),
       hdfToDataframe store reduce agg weight reshape grouper wn = .ok t →
       t.colNames.Pairwise (fun a b => strLe a b = true) ∧
       t.rows.Pairwise RowLe) := by
  constructor
  · intro store₁ store₂ reduce agg weight reshape grouper wn hperm hnodup
    have hsort : sortByKey store₁ = sortByKey store₂ := by
      apply sorted_perm_eq (r := EntryLe)
      · exact (List.perm_insertionSort EntryLe store₁).trans
          (hperm.trans (List.perm_insertionSort EntryLe store₂).symm)
      · exact List.sorted_insertionSort EntryLe store₁
      · exact List.sorted_insertionSort EntryLe store₂
      · intro a ha b hb hab hba
        have hk : a.1 = b.1 := strLe_antisymm hab hba
        have ha' : a ∈ store₁ :=
          (List.perm_insertionSort EntryLe store₁).subset ha
        have hb' : b ∈ store₁ :=
          (List.perm_insertionSort EntryLe store₁).subset hb
        exact List.inj_on_of_nodup_map hnodup ha' hb' hk
    unfold hdfToDataframe sortByKey
    rw [show store₁.insertionSort EntryLe = store₂.insertionSort EntryLe
      from hsort]
  · intro store reduce agg weight reshape grouper wn t hok
    obtain ⟨df, rfl⟩ := pipeline_ok_toTable hok
    constructor
    · have hsorted : (df.cols.insertionSort ColLe).Sorted ColLe :=
        List.sorted_insertionSort ColLe df.cols
      exact List.Pairwise.map Prod.fst (fun a b h => h) hsorted
    · exact List.sorted_insertionSort RowLe _

/-- Witness for C6: a two-simulation store listed in either order gives
the same table, and the output columns and rows are sorted. -/
theorem C6_witness :
    hdfToDataframe
        [("b", [("time", [0]), ("ww", [1])]),
         ("a", [("time", [0]), ("ww", [1])])] (some 1) none true false
        "ff" "ww"
      = hdfToDataframe
        [("a", [("time", [0]), ("ww", [1])]),
         ("b", [("time", [0]), ("ww", [1])])] (some 1) none true false
        "ff" "ww" ∧
    (∃ t, hdfToDataframe
        [("b", [("time", [0]), ("ww", [1])]),
         ("a", [("time", [0]), ("ww", [1])])] (some 1) none true false
        "ff" "ww" = .ok t ∧
      t.colNames.Pairwise (fun a b => strLe a b = true) ∧
      t.rows.Pairwise RowLe) := by
  constructor
  · exact C6_determinism_and_sorting.1 _ _ (some 1) none true false
      "ff" "ww" (List.Perm.swap _ _ _) (by decide)
  · have h := C6_determinism_and_sorting.2
      [("b", [("time", [0]), ("ww", [1])]),
       ("a", [("time", [0]), ("ww", [1])])] (some 1) none true false
      "ff" "ww" _ rfl
    exact ⟨_, rfl, h.1, h.2⟩

/-- Shape of the reshaped table in stride mode, for a homogeneous store
whose observables are indexed names: the columns are the observable
bases TOGETHER WITH the weight column, and the index levels are
(time value, residue index, simulation key). -/
theorem stride_reshape_shape
    (store : Store) (ns : List String) (r : Nat) (weight : Bool)
    (grouper wn : String) (t : Table)
    (hhom : ∀ p ∈ store, (p.2 : Record).map Prod.fst = ns)
    (hnodupns : ns.Nodup) (hne : store ≠ [])
    (hgns : grouper ∉ ns) (hwm : wn ∈ ns)
    (hwt : wn ≠ "time") (hgt : grouper ≠ "time") (hgw : grouper ≠ wn)
    (hwnd : noTrailingDigit wn) (hgnd : noTrailingDigit grouper)
    (hobs : ∀ f ∈ ns, f ≠ "time" → f ≠ wn → indexedName f ∧
      stripDigits f ≠ wn ∧ stripDigits f ≠ grouper ∧ stripDigits f ≠ "time")
    (hok : hdfToDataframe store (some r) none weight true grouper wn
      = .ok t) :
    t.colNames.Perm (wn :: dedupKeep ((obsNames wn ns).map stripDigits)) ∧
    ∀ row ∈ t.rows, ∃ (tc : Cell) (res : Nat) (key : String),
      row.1 = [tc, Cell.num (res : ℚ), Cell.str key] ∧
      key ∈ store.map Prod.fst := by
  obtain ⟨frames, df, df2, h1, h2, h3, rfl⟩ := pipeline_ok_elim hok
  rw [if_pos rfl] at h2
  have hFfacts : ∀ F ∈ frames, ∃ key rec, (key, rec) ∈ store ∧
      strideFrame r wn grouper key rec = .ok F := by
    intro F hF
    obtain ⟨⟨key, rec⟩, hkr, hfx⟩ := mapME_ok_mem h1 F hF
    exact ⟨key, rec, (List.perm_insertionSort EntryLe store).subset hkr, hfx⟩
  have hFshape : ∀ F ∈ frames, F.colNames = ns ++ [grouper] := by
    intro F hF
    obtain ⟨key, rec, hkr, hsf⟩ := hFfacts F hF
    rw [(strideFrame_ok_shape hsf).1, hhom (key, rec) hkr]
  have hFlen : ∀ F ∈ frames, ∀ p ∈ F.cols, p.2.length = F.nrows := by
    intro F hF p hp
    obtain ⟨key, rec, hkr, hsf⟩ := hFfacts F hF
    obtain ⟨_, hidx, hlens⟩ := strideFrame_ok_shape hsf
    rw [hlens p hp, Frame.nrows, hidx, rangeIndex_length]
  have hFgrp : ∀ F ∈ frames, ∃ key, key ∈ store.map Prod.fst ∧
      F.cols.lookup grouper
        = some (List.replicate F.nrows (Cell.str key)) := by
    intro F hF
    obtain ⟨key, rec, hkr, hsf⟩ := hFfacts F hF
    refine ⟨key, List.mem_map_of_mem Prod.fst hkr, ?_⟩
    have hg' : grouper ∉ rec.map Prod.fst := by
      rw [hhom (key, rec) hkr]
      exact hgns
    have hnr : F.nrows = strideN r rec := by
      rw [Frame.nrows, (strideFrame_ok_shape hsf).2.1, rangeIndex_length]
    rw [strideFrame_ok_grouper hsf hg', hnr]
  have hfne : frames ≠ [] := by
    intro hfe
    apply hne
    apply List.length_eq_zero.mp
    have hlen := mapME_ok_length h1
    rw [hfe] at hlen
    simp only [List.length_nil] at hlen
    rw [← (List.perm_insertionSort EntryLe store).length_eq]
    exact hlen.symm
  have hCnodup : (ns ++ [grouper]).Nodup := by
    rw [List.nodup_append]
    refine ⟨hnodupns, List.nodup_singleton _, ?_⟩
    intro a ha hb
    rw [List.mem_singleton] at hb
    subst hb
    exact hgns ha
  have hraw : (concatFrames frames).colNames = ns ++ [grouper] :=
    concat_uniform_colNames hfne hCnodup hFshape
  have hstubs : stubsOf grouper wn (concatFrames frames)
      = dedupKeep ((obsNames wn ns).map stripDigits) := by
    unfold stubsOf
    rw [hraw, List.filter_append]
    have hg1 : ([grouper].filter
        (fun c => c != "time" && c != grouper && c != wn)) = [] := by
      simp
    rw [hg1, List.append_nil]
    congr 2
    unfold obsNames
    apply List.filter_congr
    intro c hc
    have hcg : c ≠ grouper := fun h => hgns (h ▸ hc)
    by_cases h1 : c = "time"
    · subst h1
      simp [Ne.symm hwt]
    · by_cases h2 : c = wn
      · subst h2
        simp [hwt, hcg]
      · simp [h1, h2, hcg]
  have h2' : wideToLong (concatFrames frames)
      (stubsOf grouper wn (concatFrames frames)) "time" = .ok df := by
    unfold reshapeStep at h2
    simpa only [Option.isSome_some, eq_self_iff_true, if_true] using h2
  obtain ⟨hsne, iValsT, hiv, hdfeq⟩ := wideToLong_ok_elim h2'
  subst hdfeq
  have hobs_matched : ∀ c ∈ ns, c ≠ "time" → c ≠ wn →
      c ∈ matchedNames (concatFrames frames)
        (stubsOf grouper wn (concatFrames frames)) := by
    intro c hc hct hcw
    apply mem_matchedNames_of_obs
    · rw [hraw]
      exact List.mem_append_left _ hc
    · exact (hobs c hc hct hcw).1
    · rw [hstubs, mem_dedupKeep]
      apply List.mem_map_of_mem
      unfold obsNames
      exact List.mem_filter.mpr ⟨hc, decide_eq_true (by tauto)⟩
  have hidv : wtlIdVars (concatFrames frames)
      (stubsOf grouper wn (concatFrames frames)) "time" = [wn, grouper] := by
    unfold wtlIdVars
    rw [hraw, List.filter_append]
    have hg2 : [grouper].filter (fun c =>
        !(c ∈ matchedNames (concatFrames frames)
          (stubsOf grouper wn (concatFrames frames))) && c != "time")
        = [grouper] := by
      simp [not_mem_matchedNames hgnd, hgt]
    have hns2 : ns.filter (fun c =>
        !(c ∈ matchedNames (concatFrames frames)
          (stubsOf grouper wn (concatFrames frames))) && c != "time")
        = [wn] := by
      have hcongr : ns.filter (fun c =>
          !(c ∈ matchedNames (concatFrames frames)
            (stubsOf grouper wn (concatFrames frames))) && c != "time")
          = ns.filter (fun c => decide (c = wn)) := by
        apply List.filter_congr
        intro c hc
        by_cases hc1 : c = "time"
        · subst hc1
          simp [Ne.symm hwt]
        · by_cases hc2 : c = wn
          · subst hc2
            simp [not_mem_matchedNames hwnd, hc1]
          · simp [hobs_matched c hc hc1 hc2, hc2]
      rw [hcongr, List.filter_eq, List.count_eq_one_of_mem hnodupns hwm]
      rfl
    rw [hns2, hg2]
    rfl
  have hgidv : grouper ∈ wtlIdVars (concatFrames frames)
      (stubsOf grouper wn (concatFrames frames)) "time" := by
    rw [hidv]
    simp
  have hlookg := @wtlFrame_lookup_idVar _ _ _ iValsT _ hgidv
  unfold dropStep at h3
  simp only [Option.isSome_some, eq_self_iff_true, if_true] at h3
  rw [setIndexAppend_ok hlookg] at h3
  injection h3 with hdf2
  have hBfacts : ∀ b ∈ dedupKeep ((obsNames wn ns).map stripDigits),
      b ≠ grouper ∧ b ≠ "time" := by
    intro b hb
    rw [mem_dedupKeep] at hb
    obtain ⟨f, hf, rfl⟩ := List.mem_map.mp hb
    unfold obsNames at hf
    have hfns := List.mem_of_mem_filter hf
    have hcond := List.of_mem_filter hf
    rw [decide_eq_true_eq] at hcond
    push_neg at hcond
    have := hobs f hfns hcond.1 hcond.2
    exact ⟨this.2.2.1, this.2.2.2⟩
  have hdf2names : df2.colNames
      = wn :: dedupKeep ((obsNames wn ns).map stripDigits) := by
    rw [← hdf2]
    show ((((wtlFrame (concatFrames frames)
        (stubsOf grouper wn (concatFrames frames)) "time" iValsT).cols.filter
          (fun p => p.1 != grouper)).filter
          (fun p => p.1 != "time")).map Prod.fst) = _
    rw [map_fst_filter_ne, map_fst_filter_ne, hstubs]
    have hidv' := hidv
    rw [hstubs] at hidv'
    have hwtln : (wtlFrame (concatFrames frames)
        (dedupKeep ((obsNames wn ns).map stripDigits)) "time" iValsT).cols.map
          Prod.fst
        = [wn, grouper] ++ dedupKeep ((obsNames wn ns).map stripDigits) := by
      have h := wtlFrame_colNames (concatFrames frames)
        (dedupKeep ((obsNames wn ns).map stripDigits)) "time" iValsT
      rw [hidv'] at h
      exact h
    rw [hwtln]
    rw [List.filter_append, List.filter_append]
    have e1 : [wn, grouper].filter (fun x => x != grouper) = [wn] := by
      simp [Ne.symm hgw, bne]
    have e2 : (dedupKeep ((obsNames wn ns).map stripDigits)).filter
        (fun x => x != grouper)
        = dedupKeep ((obsNames wn ns).map stripDigits) := by
      apply List.filter_eq_self.mpr
      intro b hb
      simp [(hBfacts b hb).1]
    rw [e1, e2]
    have e3 : [wn].filter (fun x => x != "time") = [wn] := by
      simp [hwt]
    have e4 : (dedupKeep ((obsNames wn ns).map stripDigits)).filter
        (fun x => x != "time")
        = dedupKeep ((obsNames wn ns).map stripDigits) := by
      apply List.filter_eq_self.mpr
      intro b hb
      simp [(hBfacts b hb).2]
    rw [e3, e4]
    rfl
  constructor
  · have hperm := toTable_colNames_perm df2
    rwa [hdf2names] at hperm
  · intro row hrow
    have hmem := toTable_rows_mem df2 row hrow
    rw [← hdf2] at hmem
    obtain ⟨⟨tu, cell⟩, hz, hreq⟩ := List.mem_map.mp hmem
    have hz2 := List.of_mem_zip hz
    obtain ⟨rr, ss, htu, hrr⟩ := wtlFrame_index_mem tu hz2.1
    obtain ⟨p, hp, hcelleq⟩ := List.mem_map.mp hz2.2
    obtain ⟨rr2, hrr2, hp'⟩ := List.mem_flatMap.mp hp
    obtain ⟨ss2, _, hpeq⟩ := List.mem_map.mp hp'
    have hgmem : grouper ∈ (concatFrames frames).colNames := by
      rw [hraw]
      exact List.mem_append_right _ (List.mem_singleton_self _)
    have hglook := concat_lookup hgmem
    have hglen := concat_col_length (c := grouper) hFlen
    have hcellmem : cell ∈ frames.flatMap (fun F =>
        (F.cols.lookup grouper).getD (List.replicate F.nrows Cell.na)) := by
      rw [← hcelleq, ← hpeq]
      simp only [hglook, Option.getD_some]
      exact cell_getD_mem hglen (List.mem_range.mp hrr2)
    obtain ⟨key, hkey, hcell⟩ := concat_grouper_cells hFgrp cell hcellmem
    refine ⟨(iValsT.get? rr).getD Cell.na, ss, key, ?_, hkey⟩
    rw [← hreq, htu, hcell]
    rfl

/-- Shape of the reshaped table in aggregate mode, for a homogeneous
store whose observables are indexed names: the columns are exactly the
observable bases, and the index levels are (simulation key, residue
index). -/
theorem agg_reshape_shape
    (store : Store) (ns : List String) (agg : Option (List ℚ → ℚ))
    (weight : Bool) (grouper wn : String) (t : Table)
    (hhom : ∀ p ∈ store, (p.2 : Record).map Prod.fst = ns)
    (hnodupns : ns.Nodup) (hne : store ≠ [])
    (hgns : grouper ∉ ns)
    (hobs : ∀ f ∈ ns, f ≠ "time" → f ≠ wn → indexedName f ∧
      stripDigits f ≠ wn ∧ stripDigits f ≠ grouper ∧ stripDigits f ≠ "time")
    (hok : hdfToDataframe store none agg weight true grouper wn = .ok t) :
    t.colNames.Perm (dedupKeep ((obsNames wn ns).map stripDigits)) ∧
    ∀ row ∈ t.rows, ∃ (res : Nat) (key : String),
      row.1 = [Cell.str key, Cell.num (res : ℚ)] ∧
      key ∈ store.map Prod.fst := by
  obtain ⟨frames, df, df2, h1, h2, h3, rfl⟩ := pipeline_ok_elim hok
  rw [if_pos rfl] at h2
  have hFfacts : ∀ F ∈ frames, ∃ key rec, (key, rec) ∈ store ∧
      aggFrame agg weight wn grouper key rec = .ok F := by
    intro F hF
    obtain ⟨⟨key, rec⟩, hkr, hfx⟩ := mapME_ok_mem h1 F hF
    exact ⟨key, rec, (List.perm_insertionSort EntryLe store).subset hkr, hfx⟩
  have hFshape : ∀ F ∈ frames, F.colNames = obsNames wn ns ++ [grouper] := by
    intro F hF
    obtain ⟨key, rec, hkr, hsf⟩ := hFfacts F hF
    rw [(aggFrame_ok_shape hsf).1, hhom (key, rec) hkr]
  have hFnr : ∀ F ∈ frames, F.nrows = 1 := by
    intro F hF
    obtain ⟨key, rec, hkr, hsf⟩ := hFfacts F hF
    rw [Frame.nrows, (aggFrame_ok_shape hsf).2.1]
    rfl
  have hFlen : ∀ F ∈ frames, ∀ p ∈ F.cols, p.2.length = F.nrows := by
    intro F hF p hp
    obtain ⟨key, rec, hkr, hsf⟩ := hFfacts F hF
    rw [(aggFrame_ok_shape hsf).2.2 p hp, hFnr F hF]
  have hFgrp : ∀ F ∈ frames, ∃ key, key ∈ store.map Prod.fst ∧
      F.cols.lookup grouper
        = some (List.replicate F.nrows (Cell.str key)) := by
    intro F hF
    obtain ⟨key, rec, hkr, hsf⟩ := hFfacts F hF
    refine ⟨key, List.mem_map_of_mem Prod.fst hkr, ?_⟩
    have hg' : grouper ∉ rec.map Prod.fst := by
      rw [hhom (key, rec) hkr]
      exact hgns
    rw [aggFrame_ok_grouper hsf hg', hFnr F hF]
    rfl
  have hfne : frames ≠ [] := by
    intro hfe
    apply hne
    apply List.length_eq_zero.mp
    have hlen := mapME_ok_length h1
    rw [hfe] at hlen
    simp only [List.length_nil] at hlen
    rw [← (List.perm_insertionSort EntryLe store).length_eq]
    exact hlen.symm
  have hobsmem : ∀ c ∈ obsNames wn ns, c ∈ ns ∧ c ≠ "time" ∧ c ≠ wn := by
    intro c hc
    unfold obsNames at hc
    have hcns := List.mem_of_mem_filter hc
    have hcond := List.of_mem_filter hc
    rw [decide_eq_true_eq] at hcond
    push_neg at hcond
    exact ⟨hcns, hcond.1, hcond.2⟩
  have hCnodup : (obsNames wn ns ++ [grouper]).Nodup := by
    rw [List.nodup_append]
    refine ⟨List.Nodup.filter _ hnodupns, List.nodup_singleton _, ?_⟩
    intro a ha hb
    rw [List.mem_singleton] at hb
    subst hb
    exact hgns (hobsmem _ ha).1
  have hraw : (concatFrames frames).colNames = obsNames wn ns ++ [grouper] :=
    concat_uniform_colNames hfne hCnodup hFshape
  have hstubs : stubsOf grouper wn (concatFrames frames)
      = dedupKeep ((obsNames wn ns).map stripDigits) := by
    unfold stubsOf
    rw [hraw, List.filter_append]
    have hg1 : ([grouper].filter
        (fun c => c != "time" && c != grouper && c != wn)) = [] := by
      simp
    rw [hg1, List.append_nil]
    congr 2
    apply List.filter_eq_self.mpr
    intro c hc
    obtain ⟨hcns, hct, hcw⟩ := hobsmem c hc
    have hcg : c ≠ grouper := fun h => hgns (h ▸ hcns)
    simp [hct, hcw, hcg]
  have h2' : wideToLong (concatFrames frames)
      (stubsOf grouper wn (concatFrames frames)) grouper = .ok df := by
    unfold reshapeStep at h2
    simpa only [Option.isSome_none, Bool.false_eq_true, if_false] using h2
  obtain ⟨hsne, iValsG, hiv, hdfeq⟩ := wideToLong_ok_elim h2'
  subst hdfeq
  have hobs_matched : ∀ c ∈ obsNames wn ns,
      c ∈ matchedNames (concatFrames frames)
        (stubsOf grouper wn (concatFrames frames)) := by
    intro c hc
    obtain ⟨hcns, hct, hcw⟩ := hobsmem c hc
    apply mem_matchedNames_of_obs
    · rw [hraw]
      exact List.mem_append_left _ hc
    · exact (hobs c hcns hct hcw).1
    · rw [hstubs, mem_dedupKeep]
      exact List.mem_map_of_mem _ hc
  have hidv : wtlIdVars (concatFrames frames)
      (stubsOf grouper wn (concatFrames frames)) grouper = [] := by
    unfold wtlIdVars
    rw [hraw, List.filter_append]
    have hg2 : [grouper].filter (fun c =>
        !(c ∈ matchedNames (concatFrames frames)
          (stubsOf grouper wn (concatFrames frames))) && c != grouper)
        = [] := by
      simp
    have hns2 : (obsNames wn ns).filter (fun c =>
        !(c ∈ matchedNames (concatFrames frames)
          (stubsOf grouper wn (concatFrames frames))) && c != grouper)
        = [] := by
      rw [List.filter_congr (q := fun _ => false) (fun c hc => by
        simp [hobs_matched c hc])]
      exact List.filter_false _
    rw [hns2, hg2]
    rfl
  unfold dropStep at h3
  simp only [Option.isSome_none, Bool.false_eq_true, if_false] at h3
  injection h3 with hdf2
  have hBfacts : ∀ b ∈ dedupKeep ((obsNames wn ns).map stripDigits),
      b ≠ grouper := by
    intro b hb
    rw [mem_dedupKeep] at hb
    obtain ⟨f, hf, rfl⟩ := List.mem_map.mp hb
    obtain ⟨hfns, hft, hfw⟩ := hobsmem f hf
    exact (hobs f hfns hft hfw).2.2.1
  have hdf2names : df2.colNames
      = dedupKeep ((obsNames wn ns).map stripDigits) := by
    rw [← hdf2]
    show (((wtlFrame (concatFrames frames)
        (stubsOf grouper wn (concatFrames frames)) grouper iValsG).cols.filter
          (fun p => p.1 != grouper)).map Prod.fst) = _
    rw [map_fst_filter_ne, hstubs]
    have hidv' := hidv
    rw [hstubs] at hidv'
    have hwtln : (wtlFrame (concatFrames frames)
        (dedupKeep ((obsNames wn ns).map stripDigits)) grouper
          iValsG).cols.map Prod.fst
        = dedupKeep ((obsNames wn ns).map stripDigits) := by
      have h := wtlFrame_colNames (concatFrames frames)
        (dedupKeep ((obsNames wn ns).map stripDigits)) grouper iValsG
      rw [hidv'] at h
      exact h
    rw [hwtln]
    apply List.filter_eq_self.mpr
    intro b hb
    simp [hBfacts b hb]
  constructor
  · have hperm := toTable_colNames_perm df2
    rwa [hdf2names] at hperm
  · intro row hrow
    have hmem := toTable_rows_mem df2 row hrow
    rw [← hdf2, delCol_index] at hmem
    obtain ⟨rr, ss, htu, hrr⟩ := wtlFrame_index_mem row.1 hmem
    have hgmem : grouper ∈ (concatFrames frames).colNames := by
      rw [hraw]
      exact List.mem_append_right _ (List.mem_singleton_self _)
    have hglook := concat_lookup hgmem
    have hiVeq : iValsG = frames.flatMap (fun F =>
        (F.cols.lookup grouper).getD (List.replicate F.nrows Cell.na)) := by
      rw [hiv] at hglook
      exact Option.some.inj hglook
    have hglen := concat_col_length (c := grouper) hFlen
    have hcellmem : (iValsG.get? rr).getD Cell.na ∈ frames.flatMap (fun F =>
        (F.cols.lookup grouper).getD (List.replicate F.nrows Cell.na)) := by
      rw [hiVeq]
      exact cell_getD_mem hglen hrr
    obtain ⟨key, hkey, hcell⟩ := concat_grouper_cells hFgrp _ hcellmem
    exact ⟨ss, key, by rw [htu, hcell], hkey⟩

/-- C5 (amended): with `reshape=True`, over a homogeneous store whose
observable fields are indexed names (base plus nonempty digit suffix,
bases distinct from the bookkeeping names), the returned table has as
columns the observable base names PLUS, in stride mode, the weight
column (which the code never drops); the row index levels are
(time value, residue index, simulation key) in stride mode and
(simulation key, residue index) in aggregate mode. -/
theorem C5_amended_reshape_shape :
    (∀ (store : Store) (ns : List String) (r : Nat) (weight : Bool)
       (grouper wn : String) (t : Table),
       (∀ p ∈ store, (p.2 : Record).map Prod.fst = ns) → ns.Nodup →
       store ≠ [] → grouper ∉ ns → wn ∈ ns → wn ≠ "time" →
       grouper ≠ "time" → grouper ≠ wn → noTrailingDigit wn →
       noTrailingDigit grouper →
       (∀ f ∈ ns, f ≠ "time" → f ≠ wn → indexedName f ∧
         stripDigits f ≠ wn ∧ stripDigits f ≠ grouper ∧
         stripDigits f ≠ "time") →
       hdfToDataframe store (some r) none weight true grouper wn = .ok t →
       t.colNames.Perm
         (wn :: dedupKeep ((obsNames wn ns).map stripDigits)) ∧
       ∀ row ∈ t.rows, ∃ (tc : Cell) (res : Nat) (key : String),
         row.1 = [tc, Cell.num (res : ℚ), Cell.str key] ∧
         key ∈ store.map Prod.fst) ∧
    (∀ (store : Store) (ns : List String) (agg : Option (List ℚ → ℚ))
       (weight : Bool) (grouper wn : String) (t : Table),
       (∀ p ∈ store, (p.2 : Record).map Prod.fst = ns) → ns.Nodup →
       store ≠ [] → grouper ∉ ns →
       (∀ f ∈ ns, f ≠ "time" → f ≠ wn → indexedName f ∧
         stripDigits f ≠ wn ∧ stripDigits f ≠ grouper ∧
         stripDigits f ≠ "time") →
       hdfToDataframe store none agg weight true grouper wn = .ok t →
       t.colNames.Perm (dedupKeep ((obsNames wn ns).map stripDigits)) ∧
       ∀ row ∈ t.rows, ∃ (res : Nat) (key : String),
         row.1 = [Cell.str key, Cell.num (res : ℚ)] ∧
         key ∈ store.map Prod.fst) :=
  ⟨fun store ns r weight grouper wn t hhom hnodup hne hgns hwm hwt hgt
      hgw hwnd hgnd hobs hok =>
    stride_reshape_shape store ns r weight grouper wn t hhom hnodup hne
      hgns hwm hwt hgt hgw hwnd hgnd hobs hok,
   fun store ns agg weight grouper wn t hhom hnodup hne hgns hobs hok =>
    agg_reshape_shape store ns agg weight grouper wn t hhom hnodup hne
      hgns hobs hok⟩

/-- Witness for the amended C5: a concrete two-observable store in
stride mode keeps `ww` next to the base `phi`; a concrete aggregated
store has exactly the base `phi` as column. -/
theorem C5_amended_witness :
    (∃ t, hdfToDataframe
        [("s1", [("phi0", [1, 2]), ("phi1", [3, 4]), ("time", [0, 1]),
                 ("ww", [1, 1])])] (some 1) none true true "ff" "ww"
        = .ok t ∧
      t.colNames.Perm ("ww" :: dedupKeep ((obsNames "ww"
        ["phi0", "phi1", "time", "ww"]).map stripDigits)) ∧
      ∀ row ∈ t.rows, ∃ (tc : Cell) (res : Nat) (key : String),
        row.1 = [tc, Cell.num (res : ℚ), Cell.str key] ∧
        key ∈ ([("s1", [("phi0", [1, 2]), ("phi1", [3, 4]),
          ("time", [0, 1]), ("ww", [1, 1])])] : Store).map Prod.fst) ∧
    (∃ t, hdfToDataframe
        [("s1", [("phi0", [1, 2, 3]), ("time", [0, 1, 2]),
                 ("ww", [1/2, 1/4, 1/4])])] none (some List.sum) true
        true "ff" "ww" = .ok t ∧
      t.colNames.Perm (dedupKeep ((obsNames "ww"
        ["phi0", "time", "ww"]).map stripDigits)) ∧
      ∀ row ∈ t.rows, ∃ (res : Nat) (key : String),
        row.1 = [Cell.str key, Cell.num (res : ℚ)] ∧
        key ∈ ([("s1", [("phi0", [1, 2, 3]), ("time", [0, 1, 2]),
          ("ww", [1/2, 1/4, 1/4])])] : Store).map Prod.fst) := by
  constructor
  · have h := C5_amended_reshape_shape.1
      [("s1", [("phi0", [1, 2]), ("phi1", [3, 4]), ("time", [0, 1]),
               ("ww", [1, 1])])]
      ["phi0", "phi1", "time", "ww"] 1 true "ff" "ww" _
      (by decide) (by decide) (by decide) (by decide) (by decide)
      (by decide) (by decide) (by decide) rfl rfl
      (by
        intro f hf ht hw
        simp only [List.mem_cons, List.not_mem_nil, or_false] at hf
        rcases hf with rfl | rfl | rfl | rfl
        · exact ⟨⟨by decide, by decide⟩, by decide, by decide, by decide⟩
        · exact ⟨⟨by decide, by decide⟩, by decide, by decide, by decide⟩
        · exact absurd rfl ht
        · exact absurd rfl hw) rfl
    exact ⟨_, rfl, h.1, h.2⟩
  · have h := C5_amended_reshape_shape.2
      [("s1", [("phi0", [1, 2, 3]), ("time", [0, 1, 2]),
               ("ww", [1/2, 1/4, 1/4])])]
      ["phi0", "time", "ww"] (some List.sum) true "ff" "ww" _
      (by decide) (by decide) (by decide) (by decide)
      (by
        intro f hf ht hw
        simp only [List.mem_cons, List.not_mem_nil, or_false] at hf
        rcases hf with rfl | rfl | rfl
        · exact ⟨⟨by decide, by decide⟩, by decide, by decide, by decide⟩
        · exact absurd rfl ht
        · exact absurd rfl hw) rfl
    exact ⟨_, rfl, h.1, h.2⟩

end Plumology
